import Mathlib

/-!
Shallow embedding of the frame-parallel TimsTOF raw-data reading pipeline
from `AugustSirius/accelerate_raw_data_reading`, together with proofs about
the claims of its specification.

Sources embedded here:
  * `src/src/main.rs` — the benchmark crate with the strategies
    `read_timstof_data_v1` … `read_timstof_data_v6_hpc`;
  * `src/原始稳定版/src/main.rs` — the sequential/original implementation
    `read_timstof_data`;
  * `src/compare_original_to_version5/src/main.rs` — the comparison tool
    with `read_timstof_data_v5_fixed` and its ordered channel aggregator.

Modelling conventions (each is noted again at the definition it concerns):
  * `f32`/`f64` values are modelled as exact rationals (`ℚ`); the claims
    settled against these definitions do not depend on floating-point
    rounding of products or quotients, except where explicitly discussed.
  * The calibration converters (`mz_converter`, `im_converter`) are opaque
    injected functions `ℚ → ℚ`, exactly as the specification treats them.
  * `usize`/`u32` values are `ℕ`; the one place where a `u32` cast can
    saturate (`quantize`) models the saturation explicitly.
  * Rayon parallel iteration is collapsed to index order: `par_iter().map()
    .collect()` preserves index order, `reduce` combines partial results in
    index order, and `for_each` interleavings only permute rows, so every
    content-level (per-key, multiset, or count) statement proved here is
    schedule-independent.  Hash-map iteration order (std `HashMap`,
    `DashMap`) is unspecified in Rust; maps are modelled as association
    lists in first-insertion order, and claims about them are stated per
    key or as counts so that the modelled order carries no information.
-/

namespace AccelRaw

/-- MS acquisition level of a frame (timsrust's `MSLevel`). -/
inductive MSLevel where
  | MS1
  | MS2
  | Unknown
deriving DecidableEq, Repr

/-- Per-frame quadrupole isolation settings (timsrust's
`QuadrupoleSettings`): parallel arrays of isolation center m/z, isolation
width, and inclusive scan-range bounds per isolation window. -/
structure QuadrupoleSettings where
  isolation_mz : List ℚ
  isolation_width : List ℚ
  scan_starts : List ℕ
  scan_ends : List ℕ
deriving DecidableEq, Repr

/-- One raw frame as delivered by the external frame reader (timsrust's
`Frame`): retention time in seconds, MS level, parallel TOF-index and
intensity arrays, the ascending per-scan offset table, and the quadrupole
settings. -/
structure Frame where
  index : ℕ
  rt_in_seconds : ℚ
  ms_level : MSLevel
  tof_indices : List ℕ
  intensities : List ℕ
  scan_offsets : List ℕ
  quadrupole_settings : QuadrupoleSettings
deriving DecidableEq, Repr

/-- The columnar peak table `TimsTOFData` (identical in all three source
files): six parallel vectors describing peaks. -/
@[ext]
structure TimsTOFData where
  rt_values_min : List ℚ
  mobility_values : List ℚ
  mz_values : List ℚ
  intensity_values : List ℕ
  frame_indices : List ℕ
  scan_indices : List ℕ
deriving DecidableEq, Repr

namespace TimsTOFData

/-- `TimsTOFData::new()` — six empty vectors. `with_capacity` only
pre-allocates and is observationally identical. -/
def new : TimsTOFData := ⟨[], [], [], [], [], []⟩

/-- `TimsTOFData::merge_from(&mut self, other)` — appends (drains) each of
the six vectors of `other` onto the corresponding vector of `self`.  In the
pure model draining `other` is irrelevant, so this is field-wise
concatenation. -/
def merge_from (self other : TimsTOFData) : TimsTOFData :=
  ⟨self.rt_values_min ++ other.rt_values_min,
   self.mobility_values ++ other.mobility_values,
   self.mz_values ++ other.mz_values,
   self.intensity_values ++ other.intensity_values,
   self.frame_indices ++ other.frame_indices,
   self.scan_indices ++ other.scan_indices⟩

/-- `TimsTOFData::extend_from(&mut self, other)` — `extend_from_slice` on
each of the six vectors: field-wise concatenation, leaving `other` intact. -/
def extend_from (self other : TimsTOFData) : TimsTOFData :=
  ⟨self.rt_values_min ++ other.rt_values_min,
   self.mobility_values ++ other.mobility_values,
   self.mz_values ++ other.mz_values,
   self.intensity_values ++ other.intensity_values,
   self.frame_indices ++ other.frame_indices,
   self.scan_indices ++ other.scan_indices⟩

/-- The six parallel vectors have equal lengths (the row-alignment
invariant of spec §3). -/
def balanced (d : TimsTOFData) : Prop :=
  d.mobility_values.length = d.rt_values_min.length ∧
  d.mz_values.length = d.rt_values_min.length ∧
  d.intensity_values.length = d.rt_values_min.length ∧
  d.frame_indices.length = d.rt_values_min.length ∧
  d.scan_indices.length = d.rt_values_min.length

instance (d : TimsTOFData) : Decidable d.balanced := by
  unfold balanced; infer_instance

end TimsTOFData

/-- One peak row: (retention time, mobility, m/z, intensity, frame index,
scan index). -/
abbrev PeakRow : Type := ℚ × ℚ × ℚ × ℕ × ℕ × ℕ

/-- The rows of a peak table: the six vectors zipped position-wise.  For a
balanced table this pairs exactly the co-indexed entries. -/
def TimsTOFData.rows (d : TimsTOFData) : List PeakRow :=
  d.rt_values_min.zip (d.mobility_values.zip (d.mz_values.zip
    (d.intensity_values.zip (d.frame_indices.zip d.scan_indices))))

/-- Raw result structure `TimsTOFRawData`: the global MS1 table and the
MS2 windows as (de-quantized boundary pair, table) entries. -/
structure TimsTOFRawData where
  ms1_data : TimsTOFData
  ms2_windows : List ((ℚ × ℚ) × TimsTOFData)
deriving DecidableEq, Repr

/-- Per-frame split produced by the map phase of v1 and of the original
reader: the frame's MS1 contribution and its keyed MS2 contributions. -/
structure FrameSplit where
  ms1 : TimsTOFData
  ms2 : List ((ℕ × ℕ) × TimsTOFData)
deriving DecidableEq, Repr

/-! ## Quantization

`fn quantize(x: f32) -> u32 { (x * 10_000.0).round() as u32 }`

Rust's `f32::round` rounds half away from zero; the `as u32` cast
saturates: negative values (and NaN) become `0`, values above `u32::MAX`
become `u32::MAX`.  The multiplication is modelled exactly on `ℚ`. -/

/-- Round to the nearest integer, halves away from zero — the semantics of
Rust's `f32::round`, on exact rationals. -/
def roundAwayFromZero (q : ℚ) : ℤ :=
  if 0 ≤ q then ⌊q + 1 / 2⌋ else -⌊-q + 1 / 2⌋

/-- Largest `u32` value. -/
def u32Max : ℕ := 4294967295

/-- The saturating `as u32` cast applied to a (mathematical) rounded
float value: negatives clamp to 0, overflow clamps to `u32::MAX`. -/
def castU32 (z : ℤ) : ℕ := (min z (u32Max : ℤ)).toNat

/-- `quantize` from the source (identical in all three files). -/
def quantize (x : ℚ) : ℕ := castU32 (roundAwayFromZero (x * 10000))

/-! ## Scan locators

The linear variant walks `scan_offsets.windows(2).enumerate()` and falls
back to `scan_offsets.len() - 1`; the binary variant calls the Rust
standard library's `slice::binary_search` and maps `Ok(pos) => pos`,
`Err(pos) => pos.saturating_sub(1)`.  `binary_search` is embedded as the
current branchless standard-library implementation, which converges on the
rightmost element `<=` the target — the behaviour the specification
ascribes to this variant ("locates the rightmost offset `<= position`"). -/

/-- Index of the first window of `scan_offsets.windows(2)` whose half-open
interval contains `index`, if any. -/
def findFirstWindow (index : ℕ) : List ℕ → Option ℕ
  | a :: b :: rest =>
      if a ≤ index ∧ index < b then some 0
      else (findFirstWindow index (b :: rest)).map (· + 1)
  | _ => none

/-- `find_scan_for_index` — the linear locator: first containing window,
else `scan_offsets.len() - 1`. -/
def find_scan_for_index (index : ℕ) (scan_offsets : List ℕ) : ℕ :=
  (findFirstWindow index scan_offsets).getD (scan_offsets.length - 1)

/-- The main loop of `slice::binary_search_by`: narrow `[base, base+size)`
with `base = if a[mid] > t then base else mid`, `size -= size / 2`. -/
def bsLoop (a : List ℕ) (t : ℕ) (base size : ℕ) : ℕ :=
  if h : 1 < size then
    let half := size / 2
    let mid := base + half
    bsLoop a t (if t < a.getD mid 0 then base else mid) (size - half)
  else base
termination_by size
decreasing_by omega

/-- Result of `slice::binary_search`: `Ok(pos)` or `Err(pos)`. -/
inductive BSearchResult where
  | found (pos : ℕ)
  | notFound (pos : ℕ)
deriving DecidableEq, Repr

/-- `slice::binary_search(&t)` on a slice of `usize`, following the
branchless standard-library implementation: run the halving loop to a
single candidate `base`, then compare `a[base]` with `t`. -/
def rustBinarySearch (a : List ℕ) (t : ℕ) : BSearchResult :=
  if a.length = 0 then .notFound 0
  else
    let base := bsLoop a t 0 a.length
    let x := a.getD base 0
    if x = t then .found base
    else .notFound (base + if x < t then 1 else 0)

/-- `find_scan_for_index_binary` — `Ok(pos) => pos`,
`Err(pos) => pos.saturating_sub(1)` (truncated subtraction on `ℕ`). -/
def find_scan_for_index_binary (index : ℕ) (scan_offsets : List ℕ) : ℕ :=
  match rustBinarySearch scan_offsets index with
  | .found pos => pos
  | .notFound pos => pos - 1

/-! ## Per-frame processing

All readers walk `frame.tof_indices.iter().zip(frame.intensities.iter())
.enumerate()`, convert each peak via the injected converters and a scan
locator, and push the six fields of the peak together (except v1's MS1
path, which pre-fills two of the vectors by `resize`).  Rust's slice
indexing `qs.scan_starts[win]` panics out of bounds; here the accesses are
totalized with `getD _ 0` and the out-of-bounds condition is captured
separately by `ms2IndexOOB` (used for the error-handling claims). -/

/-- Retention time in minutes: `frame.rt_in_seconds as f32 / 60.0`. -/
def rtMin (f : Frame) : ℚ := f.rt_in_seconds / 60

/-- The enumerated peak stream of a frame:
`tof_indices.iter().zip(intensities.iter()).enumerate()`, giving
`(p_idx, (tof, intensity))` triples (`zip` truncates to the shorter
array, as in Rust). -/
def enumPeaks (f : Frame) : List (ℕ × ℕ × ℕ) :=
  (f.tof_indices.zip f.intensities).enum

/-- The converted row of one peak `(p_idx, (tof, intensity))`:
`(rt_min, im_cv.convert(scan), mz_cv.convert(tof), intensity, frame.index,
scan)` with `scan` given by the chosen locator. -/
def peakRow (mzCv imCv : ℚ → ℚ) (locate : ℕ → List ℕ → ℕ) (f : Frame)
    (p : ℕ × ℕ × ℕ) : PeakRow :=
  (rtMin f, imCv (locate p.1 f.scan_offsets), mzCv p.2.1, p.2.2, f.index,
    locate p.1 f.scan_offsets)

/-- Push one converted peak onto all six vectors — the six `push` calls
that the source loops perform together for one peak. -/
def TimsTOFData.push (d : TimsTOFData) (r : PeakRow) : TimsTOFData :=
  ⟨d.rt_values_min ++ [r.1], d.mobility_values ++ [r.2.1],
   d.mz_values ++ [r.2.2.1], d.intensity_values ++ [r.2.2.2.1],
   d.frame_indices ++ [r.2.2.2.2.1], d.scan_indices ++ [r.2.2.2.2.2]⟩

/-- The MS1 per-frame loop of the original reader and of v2…v6 (all six
fields pushed per peak), parameterized by the scan locator (linear in the
original and in the comparison tool, binary in v1…v6). -/
def ms1Table (mzCv imCv : ℚ → ℚ) (locate : ℕ → List ℕ → ℕ) (f : Frame) :
    TimsTOFData :=
  (enumPeaks f).foldl
    (fun ms1 p => ms1.push (peakRow mzCv imCv locate f p)) TimsTOFData.new

/-- The v1 MS1 loop: `rt_values_min` and `frame_indices` are pre-filled by
`resize(n_peaks, …)` on the empty vectors, and the per-peak loop pushes
only the remaining four vectors. -/
def ms1TableV1 (mzCv imCv : ℚ → ℚ) (f : Frame) : TimsTOFData :=
  (enumPeaks f).foldl
    (fun ms1 p =>
      { ms1 with
          mobility_values := ms1.mobility_values ++
            [imCv (find_scan_for_index_binary p.1 f.scan_offsets)],
          mz_values := ms1.mz_values ++ [mzCv p.2.1],
          intensity_values := ms1.intensity_values ++ [p.2.2],
          scan_indices := ms1.scan_indices ++
            [find_scan_for_index_binary p.1 f.scan_offsets] })
    { TimsTOFData.new with
        rt_values_min := List.replicate f.tof_indices.length (rtMin f),
        frame_indices := List.replicate f.tof_indices.length f.index }

/-- Quantized isolation key of window `win`:
`low = prec_mz - width * 0.5`, `high = prec_mz + width * 0.5`,
`key = (quantize(low), quantize(high))`. -/
def windowKey (f : Frame) (win : ℕ) : ℕ × ℕ :=
  (quantize (f.quadrupole_settings.isolation_mz.getD win 0 -
      f.quadrupole_settings.isolation_width.getD win 0 * (1 / 2)),
   quantize (f.quadrupole_settings.isolation_mz.getD win 0 +
      f.quadrupole_settings.isolation_width.getD win 0 * (1 / 2)))

/-- Scan-range membership: the source skips a peak of window `win` when
`scan < qs.scan_starts[win] || scan > qs.scan_ends[win]`. -/
def scanInWindow (f : Frame) (win scan : ℕ) : Bool :=
  !(decide (scan < f.quadrupole_settings.scan_starts.getD win 0) ||
    decide (f.quadrupole_settings.scan_ends.getD win 0 < scan))

/-- The per-window peak-collection loop (textually identical in all
readers up to the locator): every peak whose located scan lies in the
window's inclusive scan range, pushed in peak order. -/
def windowTable (mzCv imCv : ℚ → ℚ) (locate : ℕ → List ℕ → ℕ) (f : Frame)
    (win : ℕ) : TimsTOFData :=
  (enumPeaks f).foldl
    (fun td p =>
      if scanInWindow f win (locate p.1 f.scan_offsets)
      then td.push (peakRow mzCv imCv locate f p) else td)
    TimsTOFData.new

/-- The MS2 window loop of v1 and of the original reader, from window
index `win` up: `for win in 0..qs.isolation_mz.len()` with
`if win >= qs.isolation_width.len() { break; }`; every processed window is
pushed, even when its collected table is empty. -/
def ms2PairsFrom (mzCv imCv : ℚ → ℚ) (locate : ℕ → List ℕ → ℕ) (f : Frame)
    (win : ℕ) : List ((ℕ × ℕ) × TimsTOFData) :=
  if h : win < f.quadrupole_settings.isolation_mz.length then
    if f.quadrupole_settings.isolation_width.length ≤ win then []
    else (windowKey f win, windowTable mzCv imCv locate f win) ::
      ms2PairsFrom mzCv imCv locate f (win + 1)
  else []
termination_by f.quadrupole_settings.isolation_mz.length - win
decreasing_by omega

/-- Same loop with the emptiness guard of v2/v4/v5/v6 and of v5_fixed:
`if !td.mz_values.is_empty() { … }` before emitting the pair. -/
def ms2PairsNEFrom (mzCv imCv : ℚ → ℚ) (locate : ℕ → List ℕ → ℕ)
    (f : Frame) (win : ℕ) : List ((ℕ × ℕ) × TimsTOFData) :=
  if h : win < f.quadrupole_settings.isolation_mz.length then
    if f.quadrupole_settings.isolation_width.length ≤ win then []
    else
      if (windowTable mzCv imCv locate f win).mz_values.isEmpty
      then ms2PairsNEFrom mzCv imCv locate f (win + 1)
      else (windowKey f win, windowTable mzCv imCv locate f win) ::
        ms2PairsNEFrom mzCv imCv locate f (win + 1)
  else []
termination_by f.quadrupole_settings.isolation_mz.length - win
decreasing_by all_goals omega

/-- Whether v1's MS2 window loop evaluates an out-of-bounds index into
`scan_starts`/`scan_ends` — a Rust panic.  This happens when some window
processed before the missing-width break has no scan bound, and an
indexing expression is actually evaluated (there is at least one zipped
peak for the peak loop, or at least one `scan_offsets` window for the
capacity pre-count `frame.scan_offsets.windows(2)…filter(…)`). -/
def ms2IndexOOB (f : Frame) : Bool :=
  decide (f.ms_level = MSLevel.MS2) &&
  (!(enumPeaks f).isEmpty || decide (2 ≤ f.scan_offsets.length)) &&
  decide (min f.quadrupole_settings.scan_starts.length
      f.quadrupole_settings.scan_ends.length <
    min f.quadrupole_settings.isolation_mz.length
      f.quadrupole_settings.isolation_width.length)

/-- The map closure of `read_timstof_data_v1` for one frame. -/
def processFrameV1 (mzCv imCv : ℚ → ℚ) (f : Frame) : FrameSplit :=
  match f.ms_level with
  | .MS1 => ⟨ms1TableV1 mzCv imCv f, []⟩
  | .MS2 => ⟨TimsTOFData.new,
      ms2PairsFrom mzCv imCv find_scan_for_index_binary f 0⟩
  | .Unknown => ⟨TimsTOFData.new, []⟩

/-- The map closure of the original `read_timstof_data` for one frame
(linear locator, all six fields pushed per peak). -/
def processFrameOriginal (mzCv imCv : ℚ → ℚ) (f : Frame) : FrameSplit :=
  match f.ms_level with
  | .MS1 => ⟨ms1Table mzCv imCv find_scan_for_index f, []⟩
  | .MS2 => ⟨TimsTOFData.new,
      ms2PairsFrom mzCv imCv find_scan_for_index f 0⟩
  | .Unknown => ⟨TimsTOFData.new, []⟩

/-! ## Keyed aggregation

The keyed MS2 accumulators (`HashMap`, `DashMap`) are modelled as
association lists with unique keys in first-insertion order; their real
iteration order is unspecified, so every claim settled below reads the map
per key or as a count. -/

/-- Isolation window key: a pair of quantized `u32` boundaries. -/
abbrev WinKey : Type := ℕ × ℕ

/-- The keyed MS2 accumulator. -/
abbrev MS2Map : Type := List (WinKey × TimsTOFData)

/-- Lookup of a key in the accumulator. -/
def findEntry : MS2Map → WinKey → Option TimsTOFData
  | [], _ => none
  | (k2, e) :: rest, k => if k2 = k then some e else findEntry rest k

/-- `map.entry(key).and_modify(|e| e.extend_from(&td)).or_insert(td)`. -/
def updEntry : MS2Map → WinKey → TimsTOFData → MS2Map
  | [], k, td => [(k, td)]
  | (k2, e) :: rest, k, td =>
      if k2 = k then (k2, e.extend_from td) :: rest
      else (k2, e) :: updEntry rest k td

/-- `map.entry(key).or_insert_with(TimsTOFData::new).merge_from(&mut td)`. -/
def updEntryMerge : MS2Map → WinKey → TimsTOFData → MS2Map
  | [], k, td => [(k, TimsTOFData.new.merge_from td)]
  | (k2, e) :: rest, k, td =>
      if k2 = k then (k2, e.merge_from td) :: rest
      else (k2, e) :: updEntryMerge rest k td

/-- The table the accumulator holds under `k`, an absent key reading as
the empty table. -/
def tableAt (m : MS2Map) (k : WinKey) : TimsTOFData :=
  (findEntry m k).getD TimsTOFData.new

/-- Final de-quantization of the key set:
`let low = q_low as f32 / 10_000.0; let high = q_high as f32 / 10_000.0`
applied to every accumulator entry. -/
def dequantizeWindows (m : MS2Map) : List ((ℚ × ℚ) × TimsTOFData) :=
  m.map (fun e => (((e.1.1 : ℚ) / 10000, (e.1.2 : ℚ) / 10000), e.2))

/-! ## The pipelines

Rayon's `par_iter().map(…).collect()` yields results in index order and
its `reduce` combines partial results in index order; `for_each` writes
into shared accumulators in an arbitrary interleaving that only permutes
per-key contribution order.  Each pipeline below is the index-order
sequential collapse of the corresponding Rust function; claims involving
the shared accumulators are stated per key or as counts. -/

/-- The per-frame splits of `read_timstof_data_v1`. -/
def v1Splits (mzCv imCv : ℚ → ℚ) (frames : List Frame) : List FrameSplit :=
  frames.map (processFrameV1 mzCv imCv)

/-- The MS2 accumulator of `read_timstof_data_v1` (`DashMap` with
`and_modify(extend_from).or_insert(clone)`). -/
def v1MS2Map (mzCv imCv : ℚ → ℚ) (frames : List Frame) : MS2Map :=
  (v1Splits mzCv imCv frames).foldl
    (fun m s => s.ms2.foldl (fun m2 p => updEntry m2 p.1 p.2) m) []

/-- `read_timstof_data_v1`: parallel map into `FrameSplit`s, `reduce` with
`merge_from` for MS1, `DashMap` accumulation for MS2, then key
de-quantization. -/
def read_timstof_data_v1 (mzCv imCv : ℚ → ℚ) (frames : List Frame) :
    TimsTOFRawData :=
  ⟨(v1Splits mzCv imCv frames).foldl
      (fun acc s => acc.merge_from s.ms1) TimsTOFData.new,
   dequantizeWindows (v1MS2Map mzCv imCv frames)⟩

/-- The MS2 accumulator of the original `read_timstof_data` (`HashMap`
with `or_insert_with(new).merge_from`). -/
def origMS2Map (mzCv imCv : ℚ → ℚ) (frames : List Frame) : MS2Map :=
  (frames.map (processFrameOriginal mzCv imCv)).foldl
    (fun m s => s.ms2.foldl (fun m2 p => updEntryMerge m2 p.1 p.2) m) []

/-- The original sequential-merge `read_timstof_data` from
`原始稳定版/src/main.rs`: per-frame splits, then a sequential merge loop
extending the global MS1 vectors and folding the MS2 pairs into a
`HashMap`. -/
def read_timstof_data (mzCv imCv : ℚ → ℚ) (frames : List Frame) :
    TimsTOFRawData :=
  ⟨(frames.map (processFrameOriginal mzCv imCv)).foldl
      (fun acc s => acc.extend_from s.ms1) TimsTOFData.new,
   dequantizeWindows (origMS2Map mzCv imCv frames)⟩

/-- Partition a list into consecutive chunks (rayon's `par_chunks`, which
requires a positive chunk size; a size of 0 is lifted to 1 where Rust
would panic on an empty-range subdivision). -/
def chunksOf {α : Type} (k : ℕ) : List α → List (List α)
  | [] => []
  | a :: l => (a :: l).take (max 1 k) :: chunksOf k ((a :: l).drop (max 1 k))
termination_by l => l.length
decreasing_by simp [List.length_drop]

/-- One v2 frame task (`read_timstof_data_v2`): an MS1 frame builds its
local table and stores it as its chunk (`ms1_chunks.insert(idx, ms1)`,
chunks concatenated at the end — modelled directly in frame order); an
MS2 frame inserts each non-empty window table into the shared `DashMap`
as it is produced. -/
def v2Step (mzCv imCv : ℚ → ℚ) (acc : List TimsTOFData × MS2Map)
    (f : Frame) : List TimsTOFData × MS2Map :=
  match f.ms_level with
  | .MS1 => (acc.1 ++ [ms1Table mzCv imCv find_scan_for_index_binary f],
      acc.2)
  | .MS2 => (acc.1,
      (ms2PairsNEFrom mzCv imCv find_scan_for_index_binary f 0).foldl
        (fun m p => updEntry m p.1 p.2) acc.2)
  | .Unknown => acc

/-- The MS2 accumulator of v2. -/
def v2MS2Map (mzCv imCv : ℚ → ℚ) (frames : List Frame) : MS2Map :=
  (frames.foldl (v2Step mzCv imCv) ([], [])).2

/-- `read_timstof_data_v2`: lock-free accumulation into two `DashMap`s,
MS1 chunks concatenated afterwards, keys de-quantized. -/
def read_timstof_data_v2 (mzCv imCv : ℚ → ℚ) (frames : List Frame) :
    TimsTOFRawData :=
  ⟨(frames.foldl (v2Step mzCv imCv) ([], [])).1.foldl
      (fun g c => g.extend_from c) TimsTOFData.new,
   dequantizeWindows (v2MS2Map mzCv imCv frames)⟩

/-- One v3 chunk (`read_timstof_data_v3`): frames of the chunk folded into
a local (MS1 table, MS2 `HashMap`) pair.  MS1 peaks are pushed straight
onto the chunk's table; an MS2 window's bucket is created by
`chunk_ms2.entry(key).or_insert_with(new)` — even when no peak will match
— and then filled in place by the per-peak loop, which is the same as
merging the window's collected table into the bucket. -/
def v3Chunk (mzCv imCv : ℚ → ℚ) (chunk : List Frame) :
    TimsTOFData × MS2Map :=
  chunk.foldl (fun acc f =>
    match f.ms_level with
    | .MS1 => ((enumPeaks f).foldl
        (fun d p =>
          d.push (peakRow mzCv imCv find_scan_for_index_binary f p))
        acc.1, acc.2)
    | .MS2 => (acc.1,
        (ms2PairsFrom mzCv imCv find_scan_for_index_binary f 0).foldl
          (fun m p => updEntryMerge m p.1 p.2) acc.2)
    | .Unknown => acc) (TimsTOFData.new, [])

/-- The MS2 accumulator of v3 after the final chunk merge
(`global_ms2.entry(key).or_insert_with(new).merge_from`); the chunk size
is `max(1, n_frames / (PARALLEL_THREADS * 4))` with 32 threads. -/
def v3MS2Map (mzCv imCv : ℚ → ℚ) (frames : List Frame) : MS2Map :=
  ((chunksOf (max 1 (frames.length / 128)) frames).map
      (v3Chunk mzCv imCv)).foldl
    (fun g c => c.2.foldl (fun m p => updEntryMerge m p.1 p.2) g) []

/-- `read_timstof_data_v3`: chunked fold, then sequential merge of the
chunk results. -/
def read_timstof_data_v3 (mzCv imCv : ℚ → ℚ) (frames : List Frame) :
    TimsTOFRawData :=
  ⟨((chunksOf (max 1 (frames.length / 128)) frames).map
        (v3Chunk mzCv imCv)).foldl
      (fun g c => g.merge_from c.1) TimsTOFData.new,
   dequantizeWindows (v3MS2Map mzCv imCv frames)⟩

/-- One v4 frame task (`read_timstof_data_v4`): an MS1 frame builds a
local table and extends the `RwLock`-guarded global table under a single
write-lock acquisition; MS2 windows go into the shared `DashMap` with the
emptiness guard. -/
def v4Step (mzCv imCv : ℚ → ℚ) (acc : TimsTOFData × MS2Map) (f : Frame) :
    TimsTOFData × MS2Map :=
  match f.ms_level with
  | .MS1 => (acc.1.extend_from
      (ms1Table mzCv imCv find_scan_for_index_binary f), acc.2)
  | .MS2 => (acc.1,
      (ms2PairsNEFrom mzCv imCv find_scan_for_index_binary f 0).foldl
        (fun m p => updEntry m p.1 p.2) acc.2)
  | .Unknown => acc

/-- The MS2 accumulator of v4. -/
def v4MS2Map (mzCv imCv : ℚ → ℚ) (frames : List Frame) : MS2Map :=
  (frames.foldl (v4Step mzCv imCv) (TimsTOFData.new, [])).2

/-- `read_timstof_data_v4`: streaming accumulation under locks. -/
def read_timstof_data_v4 (mzCv imCv : ℚ → ℚ) (frames : List Frame) :
    TimsTOFRawData :=
  ⟨(frames.foldl (v4Step mzCv imCv) (TimsTOFData.new, [])).1,
   dequantizeWindows (v4MS2Map mzCv imCv frames)⟩

/-- The MS1 chunk tables of v5 (`read_timstof_data_v5`): MS1 frames are
selected by the pre-computed frame types and processed in chunks of
`max(1, ms1_indices.len() / PARALLEL_THREADS)` with 32 threads, pushing
every peak onto the chunk's table. -/
def v5MS1Chunks (mzCv imCv : ℚ → ℚ) (frames : List Frame) :
    List TimsTOFData :=
  (chunksOf
      (max 1 ((frames.filter
        (fun f => decide (f.ms_level = MSLevel.MS1))).length / 32))
      (frames.filter (fun f => decide (f.ms_level = MSLevel.MS1)))).map
    (fun chunk => chunk.foldl
      (fun d f => (enumPeaks f).foldl
        (fun d2 p =>
          d2.push (peakRow mzCv imCv find_scan_for_index_binary f p)) d)
      TimsTOFData.new)

/-- The MS2 accumulator of v5: the MS2 frames, each inserting its
non-empty window tables into the shared `DashMap`. -/
def v5MS2Map (mzCv imCv : ℚ → ℚ) (frames : List Frame) : MS2Map :=
  (frames.filter (fun f => decide (f.ms_level = MSLevel.MS2))).foldl
    (fun m f =>
      (ms2PairsNEFrom mzCv imCv find_scan_for_index_binary f 0).foldl
        (fun m2 p => updEntry m2 p.1 p.2) m) []

/-- `read_timstof_data_v5`: split-phase processing — MS1 chunks first,
then MS2 frames — followed by chunk concatenation. -/
def read_timstof_data_v5 (mzCv imCv : ℚ → ℚ) (frames : List Frame) :
    TimsTOFRawData :=
  ⟨(v5MS1Chunks mzCv imCv frames).foldl (fun g c => g.extend_from c)
      TimsTOFData.new,
   dequantizeWindows (v5MS2Map mzCv imCv frames)⟩

/-- One v6 chunk (`read_timstof_data_v6_hpc`): like a v3 chunk but with a
per-chunk `DashMap`, the emptiness guard on windows, and
`and_modify(extend_from).or_insert` insertion. -/
def v6Chunk (mzCv imCv : ℚ → ℚ) (chunk : List Frame) :
    TimsTOFData × MS2Map :=
  chunk.foldl (fun acc f =>
    match f.ms_level with
    | .MS1 => ((enumPeaks f).foldl
        (fun d p =>
          d.push (peakRow mzCv imCv find_scan_for_index_binary f p))
        acc.1, acc.2)
    | .MS2 => (acc.1,
        (ms2PairsNEFrom mzCv imCv find_scan_for_index_binary f 0).foldl
          (fun m p => updEntry m p.1 p.2) acc.2)
    | .Unknown => acc) (TimsTOFData.new, [])

/-- The MS2 accumulator of v6 after merging the per-chunk maps; the chunk
size is `(n_frames + numa_nodes - 1) / numa_nodes` (`get_numa_nodes()`
always reports at least 1). -/
def v6MS2Map (mzCv imCv : ℚ → ℚ) (numaNodes : ℕ) (frames : List Frame) :
    MS2Map :=
  ((chunksOf ((frames.length + numaNodes - 1) / numaNodes) frames).map
      (v6Chunk mzCv imCv)).foldl
    (fun g c => c.2.foldl (fun m p => updEntry m p.1 p.2) g) []

/-- `read_timstof_data_v6_hpc`: NUMA-chunked processing, then chunk
merging. -/
def read_timstof_data_v6_hpc (mzCv imCv : ℚ → ℚ) (numaNodes : ℕ)
    (frames : List Frame) : TimsTOFRawData :=
  ⟨((chunksOf ((frames.length + numaNodes - 1) / numaNodes) frames).map
        (v6Chunk mzCv imCv)).foldl
      (fun g c => g.extend_from c.1) TimsTOFData.new,
   dequantizeWindows (v6MS2Map mzCv imCv numaNodes frames)⟩

/-! ## The comparison tool's v5_fixed over a fallible frame source

The frame source is a list of `Option Frame`: `none` models a slot whose
`frames.get(idx)` returns `Err`. -/

/-- Whether a v5_fixed worker sends any message for a frame slot: failed
reads (`Err(_) => return`) and frames whose contribution is empty (the
`!ms1.mz_values.is_empty()` and `!ms2_pairs.is_empty()` guards) send
nothing.  v5_fixed uses the linear locator. -/
def v5fSends (mzCv imCv : ℚ → ℚ) : Option Frame → Bool
  | none => false
  | some f =>
      match f.ms_level with
      | .MS1 =>
          !(ms1Table mzCv imCv find_scan_for_index f).mz_values.isEmpty
      | .MS2 =>
          !(ms2PairsNEFrom mzCv imCv find_scan_for_index f 0).isEmpty
      | .Unknown => false

/-- The frame slots actually merged by v5_fixed's ordered aggregator.  The
aggregator drains `frame_buffer` strictly in frame order, advancing
`next_frame` only once that slot's message has arrived; a slot that never
sends stalls the drain for good, so — whatever the arrival order — the
merged slots are exactly the longest prefix of slots that all sent, and
every later message is still sitting in the buffer when the channel
closes and the aggregator exits. -/
def v5fMerged (mzCv imCv : ℚ → ℚ) (frames : List (Option Frame)) :
    List Frame :=
  (frames.takeWhile (v5fSends mzCv imCv)).filterMap (fun x => x)

/-- `read_timstof_data_v5_fixed` from the comparison tool: workers send
per-frame contributions over a bounded channel, the ordered aggregator
merges them (MS1 chunk list in frame order; MS2 pairs through the keyed
map of mutex-guarded tables via `or_insert_with(new)` + `merge_from`),
and finalization concatenates the MS1 chunks and de-quantizes the keys. -/
def read_timstof_data_v5_fixed (mzCv imCv : ℚ → ℚ)
    (frames : List (Option Frame)) : TimsTOFRawData :=
  ⟨(((v5fMerged mzCv imCv frames).filter
        (fun f => decide (f.ms_level = MSLevel.MS1))).map
      (ms1Table mzCv imCv find_scan_for_index)).foldl
      (fun g c => g.extend_from c) TimsTOFData.new,
   dequantizeWindows
    (((v5fMerged mzCv imCv frames).filter
        (fun f => decide (f.ms_level = MSLevel.MS2))).foldl
      (fun m f =>
        (ms2PairsNEFrom mzCv imCv find_scan_for_index f 0).foldl
          (fun m2 p => updEntryMerge m2 p.1 p.2) m) [])⟩

/-- v1 over a fallible frame source: `frames.get(idx).expect("frame
read")` panics on the first failed read and the whole read aborts, so a
dataset is returned only when every read succeeds. -/
def read_timstof_data_v1_opt (mzCv imCv : ℚ → ℚ)
    (frames : List (Option Frame)) : Option TimsTOFRawData :=
  if frames.all Option.isSome then
    some (read_timstof_data_v1 mzCv imCv (frames.filterMap (fun x => x)))
  else none

/-! ## Concrete frames used in counterexamples and witnesses -/

/-- A well-formed MS1 frame with three peaks in one scan (the MS1 scenario
of spec §8). -/
def exFrameMS1 : Frame :=
  { index := 1, rt_in_seconds := 60, ms_level := .MS1,
    tof_indices := [100, 200, 300], intensities := [10, 20, 30],
    scan_offsets := [0, 3],
    quadrupole_settings :=
      { isolation_mz := [], isolation_width := [],
        scan_starts := [], scan_ends := [] } }

/-- A well-formed MS2 frame with two peaks and one isolation window
`(499, 501)` covering scan 0 (the MS2 scenario of spec §8). -/
def exFrameMS2 : Frame :=
  { index := 2, rt_in_seconds := 120, ms_level := .MS2,
    tof_indices := [100, 200], intensities := [5, 6],
    scan_offsets := [0, 2],
    quadrupole_settings :=
      { isolation_mz := [500], isolation_width := [2],
        scan_starts := [0], scan_ends := [0] } }

/-- A well-formed MS2 frame whose single isolation window covers a scan
range containing no peaks, so its window table comes out empty. -/
def exFrameMS2Empty : Frame :=
  { index := 3, rt_in_seconds := 180, ms_level := .MS2,
    tof_indices := [100], intensities := [7],
    scan_offsets := [0, 1],
    quadrupole_settings :=
      { isolation_mz := [600], isolation_width := [2],
        scan_starts := [5], scan_ends := [6] } }

/-- An MS2 frame whose scan-bound arrays are shorter than its isolation
center/width arrays (malformed frame metadata). -/
def exFrameOOB : Frame :=
  { index := 4, rt_in_seconds := 60, ms_level := .MS2,
    tof_indices := [100], intensities := [8],
    scan_offsets := [0, 1],
    quadrupole_settings :=
      { isolation_mz := [500], isolation_width := [2],
        scan_starts := [], scan_ends := [] } }

/-! ## Specification-side descriptions used in claim statements -/

/-- Well-formed frame data, as the specification describes the external
frame interface (§4.1, §6): non-decreasing scan offsets starting at 0
whose final entry covers the peak count, and an intensity array parallel
to the TOF array. -/
def frameWF (f : Frame) : Prop :=
  List.Chain' (· ≤ ·) f.scan_offsets ∧
  f.scan_offsets.getD 0 0 = 0 ∧
  f.scan_offsets ≠ [] ∧
  f.tof_indices.length ≤
    f.scan_offsets.getD (f.scan_offsets.length - 1) 0 ∧
  f.intensities.length = f.tof_indices.length

instance (f : Frame) : Decidable (frameWF f) := by
  unfold frameWF; infer_instance

/-- Concatenation of a list of peak tables (repeated `extend_from`). -/
def concatTables (ts : List TimsTOFData) : TimsTOFData :=
  ts.foldl (fun a b => a.extend_from b) TimsTOFData.new

/-- All per-frame MS2 window tables that v1's frame processing emits under
key `k`, in frame order and window order. -/
def v1WindowTablesUnder (mzCv imCv : ℚ → ℚ) (frames : List Frame)
    (k : WinKey) : List TimsTOFData :=
  ((frames.map (processFrameV1 mzCv imCv)).foldr (fun s l => s.ms2 ++ l)
      []).filterMap (fun p => if p.1 = k then some p.2 else none)

/-- All per-frame MS2 window tables that the original reader emits under
key `k`. -/
def origWindowTablesUnder (mzCv imCv : ℚ → ℚ) (frames : List Frame)
    (k : WinKey) : List TimsTOFData :=
  ((frames.map (processFrameOriginal mzCv imCv)).foldr
      (fun s l => s.ms2 ++ l) []).filterMap
    (fun p => if p.1 = k then some p.2 else none)

/-- The number of peaks that pass the inclusion tests of the trusted
sequential reference implementation (the original reader): every zipped
peak of an MS1 frame, and for an MS2 frame, per processed window (before
the missing-width break), every peak whose linearly-located scan falls in
the window's inclusive scan range. -/
def referencePassCount (frames : List Frame) : ℕ :=
  (frames.map (fun f =>
    match f.ms_level with
    | .MS1 => (enumPeaks f).length
    | .MS2 =>
        ((List.range (min f.quadrupole_settings.isolation_mz.length
            f.quadrupole_settings.isolation_width.length)).map
          (fun win => ((enumPeaks f).filter (fun p =>
            scanInWindow f win
              (find_scan_for_index p.1 f.scan_offsets))).length)).sum
    | .Unknown => 0)).sum

/-- Total number of peak rows of a returned dataset: the MS1 table length
plus the summed lengths of all MS2 window tables (row counts read off the
`mz_values` vector, as the source does). -/
def totalPeakCount (raw : TimsTOFRawData) : ℕ :=
  raw.ms1_data.mz_values.length +
    (raw.ms2_windows.map (fun w => w.2.mz_values.length)).sum

/-! ## Canonical per-frame contributions

The reference shapes every strategy is reduced to: per frame, the MS1
table (binary locator) and the keep-all list of keyed window tables. -/

/-- A frame's MS1 contribution (binary locator, as in v1…v6). -/
def ms1Contribution (mzCv imCv : ℚ → ℚ) (f : Frame) : TimsTOFData :=
  match f.ms_level with
  | .MS1 => ms1Table mzCv imCv find_scan_for_index_binary f
  | _ => TimsTOFData.new

/-- A frame's keyed MS2 contributions, empty windows included (binary
locator). -/
def ms2Contribution (mzCv imCv : ℚ → ℚ) (f : Frame) :
    List (WinKey × TimsTOFData) :=
  match f.ms_level with
  | .MS2 => ms2PairsFrom mzCv imCv find_scan_for_index_binary f 0
  | _ => []

/-- A frame's non-empty keyed MS2 contributions (binary locator), as
emitted by v2/v4/v5/v6. -/
def ms2ContributionNE (mzCv imCv : ℚ → ℚ) (f : Frame) :
    List (WinKey × TimsTOFData) :=
  match f.ms_level with
  | .MS2 => ms2PairsNEFrom mzCv imCv find_scan_for_index_binary f 0
  | _ => []

/-- All keyed MS2 contributions of a frame list, in frame order. -/
def flattenContribs (mzCv imCv : ℚ → ℚ) (frames : List Frame) :
    List (WinKey × TimsTOFData) :=
  frames.foldr (fun f l => ms2Contribution mzCv imCv f ++ l) []

/-- The canonical global MS1 table. -/
def canonicalMS1 (mzCv imCv : ℚ → ℚ) (frames : List Frame) : TimsTOFData :=
  concatTables (frames.map (ms1Contribution mzCv imCv))

/-- The canonical content of the MS2 bucket of key `k`. -/
def canonicalTableAt (mzCv imCv : ℚ → ℚ) (frames : List Frame)
    (k : WinKey) : TimsTOFData :=
  concatTables ((flattenContribs mzCv imCv frames).filterMap
    (fun p => if p.1 = k then some p.2 else none))

/-! # Lemmas about the peak-table monoid -/

namespace TimsTOFData

theorem merge_from_eq_extend_from (a b : TimsTOFData) :
    a.merge_from b = a.extend_from b := rfl

theorem extend_from_assoc (a b c : TimsTOFData) :
    (a.extend_from b).extend_from c = a.extend_from (b.extend_from c) := by
  simp [extend_from]

theorem new_extend_from (a : TimsTOFData) : new.extend_from a = a := by
  cases a; simp [extend_from, new]

theorem extend_from_new (a : TimsTOFData) : a.extend_from new = a := by
  cases a; simp [extend_from, new]

theorem new_balanced : new.balanced := by simp [new, balanced]

theorem push_balanced (d : TimsTOFData) (r : PeakRow) (h : d.balanced) :
    (d.push r).balanced := by
  obtain ⟨h1, h2, h3, h4, h5⟩ := h
  simp [push, balanced, h1, h2, h3, h4, h5]

theorem extend_from_balanced (a b : TimsTOFData) (ha : a.balanced)
    (hb : b.balanced) : (a.extend_from b).balanced := by
  obtain ⟨a1, a2, a3, a4, a5⟩ := ha
  obtain ⟨b1, b2, b3, b4, b5⟩ := hb
  simp [extend_from, balanced, a1, a2, a3, a4, a5, b1, b2, b3, b4, b5]

theorem eq_new_of_mz_nil (d : TimsTOFData) (hb : d.balanced)
    (h : d.mz_values = []) : d = new := by
  obtain ⟨h1, h2, h3, h4, h5⟩ := hb
  have hrt : d.rt_values_min.length = 0 := by
    rw [← h2, h]; rfl
  ext1 <;>
    simp [new, ← List.length_eq_zero, hrt, h1, h2, h3, h4, h5, h]

theorem rows_extend_from (a b : TimsTOFData) (ha : a.balanced)
    (hb : b.balanced) :
    (a.extend_from b).rows = a.rows ++ b.rows := by
  obtain ⟨a1, a2, a3, a4, a5⟩ := ha
  obtain ⟨b1, b2, b3, b4, b5⟩ := hb
  simp only [rows, extend_from]
  rw [List.zip_append (by omega), List.zip_append (by simp [List.length_zip]; omega),
    List.zip_append (by simp [List.length_zip]; omega),
    List.zip_append (by simp [List.length_zip]; omega),
    List.zip_append (by simp [List.length_zip]; omega)]

end TimsTOFData

/-! # Lemmas about the keyed accumulator -/

theorem tableAt_nil (k : WinKey) : tableAt [] k = TimsTOFData.new := rfl

theorem tableAt_updEntry (m : MS2Map) (k : WinKey) (td : TimsTOFData)
    (k2 : WinKey) :
    tableAt (updEntry m k td) k2 =
      if k2 = k then (tableAt m k).extend_from td else tableAt m k2 := by
  induction m with
  | nil =>
      by_cases h : k2 = k
      · subst h
        simp [updEntry, tableAt, findEntry, TimsTOFData.new_extend_from]
      · simp [updEntry, tableAt, findEntry, h, Ne.symm h]
  | cons p rest ih =>
      obtain ⟨k3, e⟩ := p
      by_cases h3 : k3 = k
      · subst h3
        by_cases h2 : k2 = k3
        · subst h2; simp [updEntry, tableAt, findEntry]
        · simp [updEntry, tableAt, findEntry, h2, Ne.symm h2]
      · by_cases h2 : k2 = k3
        · subst h2
          have hk : ¬(k2 = k) := fun hh => h3 hh
          simp [updEntry, tableAt, findEntry, h3, hk]
        · simpa [updEntry, tableAt, findEntry, h3, h2, Ne.symm h2]
            using ih

theorem updEntryMerge_eq_updEntry (m : MS2Map) (k : WinKey)
    (td : TimsTOFData) : updEntryMerge m k td = updEntry m k td := by
  induction m with
  | nil =>
      simp [updEntryMerge, updEntry, TimsTOFData.merge_from_eq_extend_from,
        TimsTOFData.new_extend_from]
  | cons p rest ih =>
      obtain ⟨k3, e⟩ := p
      by_cases h3 : k3 = k <;>
        simp [updEntryMerge, updEntry, h3, ih,
          TimsTOFData.merge_from_eq_extend_from]

theorem concatTables_nil : concatTables [] = TimsTOFData.new := rfl

theorem foldl_extend_from (ts : List TimsTOFData) (a b : TimsTOFData) :
    ts.foldl (fun x y => x.extend_from y) (a.extend_from b) =
      a.extend_from (ts.foldl (fun x y => x.extend_from y) b) := by
  induction ts generalizing b with
  | nil => rfl
  | cons t ts ih => simp only [List.foldl_cons, TimsTOFData.extend_from_assoc, ih]

theorem concatTables_cons (x : TimsTOFData) (ts : List TimsTOFData) :
    concatTables (x :: ts) = x.extend_from (concatTables ts) := by
  simp only [concatTables, List.foldl_cons, TimsTOFData.new_extend_from]
  rw [← foldl_extend_from ts x TimsTOFData.new,
    TimsTOFData.extend_from_new]

theorem concatTables_append (ts us : List TimsTOFData) :
    concatTables (ts ++ us) =
      (concatTables ts).extend_from (concatTables us) := by
  induction ts with
  | nil => simp [concatTables_nil, TimsTOFData.new_extend_from]
  | cons t ts ih =>
      simp [concatTables_cons, ih, TimsTOFData.extend_from_assoc]

theorem tableAt_foldl_updEntry (l : List (WinKey × TimsTOFData))
    (m : MS2Map) (k : WinKey) :
    tableAt (l.foldl (fun m2 p => updEntry m2 p.1 p.2) m) k =
      (tableAt m k).extend_from (concatTables
        (l.filterMap (fun p => if p.1 = k then some p.2 else none))) := by
  induction l generalizing m with
  | nil => simp [concatTables_nil, TimsTOFData.extend_from_new]
  | cons p l ih =>
      obtain ⟨pk, ptd⟩ := p
      by_cases h : pk = k
      · subst h
        simp [List.foldl_cons, ih, tableAt_updEntry,
          List.filterMap_cons, concatTables_cons,
          TimsTOFData.extend_from_assoc]
      · simp [List.foldl_cons, ih, tableAt_updEntry, h, Ne.symm h,
          List.filterMap_cons]

theorem sumLen_updEntry (m : MS2Map) (k : WinKey) (td : TimsTOFData) :
    ((updEntry m k td).map (fun e => e.2.mz_values.length)).sum =
      (m.map (fun e => e.2.mz_values.length)).sum +
        td.mz_values.length := by
  induction m with
  | nil => simp [updEntry]
  | cons p rest ih =>
      obtain ⟨k3, e⟩ := p
      by_cases h3 : k3 = k <;>
        simp [updEntry, h3, ih, TimsTOFData.extend_from] <;> omega

theorem sumLen_foldl_updEntry (l : List (WinKey × TimsTOFData))
    (m : MS2Map) :
    (((l.foldl (fun m2 p => updEntry m2 p.1 p.2) m)).map
        (fun e => e.2.mz_values.length)).sum =
      (m.map (fun e => e.2.mz_values.length)).sum +
        (l.map (fun p => p.2.mz_values.length)).sum := by
  induction l generalizing m with
  | nil => simp
  | cons p l ih => simp [List.foldl_cons, ih, sumLen_updEntry]; omega

/-! # Characterizations of the per-frame loops -/

/-- The table holding exactly one peak row. -/
theorem push_eq_extend_single (d : TimsTOFData) (r : PeakRow) :
    d.push r = d.extend_from
      ⟨[r.1], [r.2.1], [r.2.2.1], [r.2.2.2.1], [r.2.2.2.2.1],
        [r.2.2.2.2.2]⟩ := rfl

theorem foldl_push_general {α : Type} (r : α → PeakRow) :
    ∀ (l : List α) (init : TimsTOFData),
      l.foldl (fun d x => d.push (r x)) init =
        init.extend_from
          ⟨l.map (fun x => (r x).1), l.map (fun x => (r x).2.1),
           l.map (fun x => (r x).2.2.1), l.map (fun x => (r x).2.2.2.1),
           l.map (fun x => (r x).2.2.2.2.1),
           l.map (fun x => (r x).2.2.2.2.2)⟩ := by
  intro l
  induction l with
  | nil =>
      intro init
      simp [List.foldl_nil, List.map_nil]
      cases init; simp [TimsTOFData.extend_from]
  | cons x l ih =>
      intro init
      rw [List.foldl_cons, ih, push_eq_extend_single,
        TimsTOFData.extend_from_assoc]
      simp [TimsTOFData.extend_from]

theorem foldl_pushIf_general {α : Type} (c : α → Bool) (r : α → PeakRow) :
    ∀ (l : List α) (init : TimsTOFData),
      l.foldl (fun d x => if c x then d.push (r x) else d) init =
        init.extend_from
          ⟨(l.filter c).map (fun x => (r x).1),
           (l.filter c).map (fun x => (r x).2.1),
           (l.filter c).map (fun x => (r x).2.2.1),
           (l.filter c).map (fun x => (r x).2.2.2.1),
           (l.filter c).map (fun x => (r x).2.2.2.2.1),
           (l.filter c).map (fun x => (r x).2.2.2.2.2)⟩ := by
  intro l
  induction l with
  | nil =>
      intro init
      simp [List.foldl_nil]
      cases init; simp [TimsTOFData.extend_from]
  | cons x l ih =>
      intro init
      by_cases hc : c x = true
      · rw [List.foldl_cons, if_pos hc, ih, push_eq_extend_single,
          TimsTOFData.extend_from_assoc, List.filter_cons_of_pos hc]
        simp [TimsTOFData.extend_from]
      · rw [List.foldl_cons, if_neg hc, ih,
          List.filter_cons_of_neg (by simpa using hc)]

/-- The MS1 loop of the original reader and v2…v6 in closed form. -/
theorem ms1Table_eq_mk (mzCv imCv : ℚ → ℚ) (locate : ℕ → List ℕ → ℕ)
    (f : Frame) :
    ms1Table mzCv imCv locate f =
      ⟨(enumPeaks f).map (fun _ => rtMin f),
       (enumPeaks f).map (fun p => imCv (locate p.1 f.scan_offsets)),
       (enumPeaks f).map (fun p => mzCv p.2.1),
       (enumPeaks f).map (fun p => p.2.2),
       (enumPeaks f).map (fun _ => f.index),
       (enumPeaks f).map (fun p => locate p.1 f.scan_offsets)⟩ := by
  unfold ms1Table
  rw [foldl_push_general (peakRow mzCv imCv locate f)]
  simp [TimsTOFData.new_extend_from, peakRow]

/-- The per-window collection loop in closed form. -/
theorem windowTable_eq_mk (mzCv imCv : ℚ → ℚ) (locate : ℕ → List ℕ → ℕ)
    (f : Frame) (win : ℕ) :
    windowTable mzCv imCv locate f win =
      ⟨((enumPeaks f).filter (fun p =>
          scanInWindow f win (locate p.1 f.scan_offsets))).map
        (fun _ => rtMin f),
       ((enumPeaks f).filter (fun p =>
          scanInWindow f win (locate p.1 f.scan_offsets))).map
        (fun p => imCv (locate p.1 f.scan_offsets)),
       ((enumPeaks f).filter (fun p =>
          scanInWindow f win (locate p.1 f.scan_offsets))).map
        (fun p => mzCv p.2.1),
       ((enumPeaks f).filter (fun p =>
          scanInWindow f win (locate p.1 f.scan_offsets))).map
        (fun p => p.2.2),
       ((enumPeaks f).filter (fun p =>
          scanInWindow f win (locate p.1 f.scan_offsets))).map
        (fun _ => f.index),
       ((enumPeaks f).filter (fun p =>
          scanInWindow f win (locate p.1 f.scan_offsets))).map
        (fun p => locate p.1 f.scan_offsets)⟩ := by
  unfold windowTable
  rw [foldl_pushIf_general
    (fun p => scanInWindow f win (locate p.1 f.scan_offsets))
    (peakRow mzCv imCv locate f)]
  simp [TimsTOFData.new_extend_from, peakRow]

theorem windowTable_balanced (mzCv imCv : ℚ → ℚ)
    (locate : ℕ → List ℕ → ℕ) (f : Frame) (win : ℕ) :
    (windowTable mzCv imCv locate f win).balanced := by
  rw [windowTable_eq_mk]
  simp [TimsTOFData.balanced]

theorem ms1Table_balanced (mzCv imCv : ℚ → ℚ) (locate : ℕ → List ℕ → ℕ)
    (f : Frame) : (ms1Table mzCv imCv locate f).balanced := by
  rw [ms1Table_eq_mk]
  simp [TimsTOFData.balanced]

/-- A window table whose `mz_values` vector is empty is the empty table. -/
theorem windowTable_eq_new_of_mz_nil (mzCv imCv : ℚ → ℚ)
    (locate : ℕ → List ℕ → ℕ) (f : Frame) (win : ℕ)
    (h : (windowTable mzCv imCv locate f win).mz_values = []) :
    windowTable mzCv imCv locate f win = TimsTOFData.new :=
  TimsTOFData.eq_new_of_mz_nil _ (windowTable_balanced mzCv imCv locate f win) h

/-- The v1 MS1 loop in closed form: the pre-`resize`d vectors keep their
`n_peaks` entries, the other four vectors get one entry per zipped peak. -/
theorem ms1TableV1_eq_mk (mzCv imCv : ℚ → ℚ) (f : Frame) :
    ms1TableV1 mzCv imCv f =
      ⟨List.replicate f.tof_indices.length (rtMin f),
       (enumPeaks f).map (fun p =>
         imCv (find_scan_for_index_binary p.1 f.scan_offsets)),
       (enumPeaks f).map (fun p => mzCv p.2.1),
       (enumPeaks f).map (fun p => p.2.2),
       List.replicate f.tof_indices.length f.index,
       (enumPeaks f).map (fun p =>
         find_scan_for_index_binary p.1 f.scan_offsets)⟩ := by
  unfold ms1TableV1
  have hgen : ∀ (l : List (ℕ × ℕ × ℕ)) (init : TimsTOFData),
      l.foldl (fun ms1 p =>
        { ms1 with
            mobility_values := ms1.mobility_values ++
              [imCv (find_scan_for_index_binary p.1 f.scan_offsets)],
            mz_values := ms1.mz_values ++ [mzCv p.2.1],
            intensity_values := ms1.intensity_values ++ [p.2.2],
            scan_indices := ms1.scan_indices ++
              [find_scan_for_index_binary p.1 f.scan_offsets] }) init =
      init.extend_from
        ⟨[], l.map (fun p =>
            imCv (find_scan_for_index_binary p.1 f.scan_offsets)),
         l.map (fun p => mzCv p.2.1), l.map (fun p => p.2.2), [],
         l.map (fun p => find_scan_for_index_binary p.1 f.scan_offsets)⟩ := by
    intro l
    induction l with
    | nil =>
        intro init
        cases init; simp [TimsTOFData.extend_from]
    | cons x l ih =>
        intro init
        rw [List.foldl_cons, ih]
        cases init; simp [TimsTOFData.extend_from]
  rw [hgen]
  simp [TimsTOFData.extend_from, TimsTOFData.new]

/-- The keep-all window loop visits exactly the window indices up to the
first missing width: `[win, …, min(centers, widths) - 1]`. -/
theorem ms2PairsFrom_eq_map (mzCv imCv : ℚ → ℚ) (locate : ℕ → List ℕ → ℕ)
    (f : Frame) :
    ∀ win, ms2PairsFrom mzCv imCv locate f win =
      (List.range' win (min f.quadrupole_settings.isolation_mz.length
          f.quadrupole_settings.isolation_width.length - win)).map
        (fun w => (windowKey f w, windowTable mzCv imCv locate f w)) := by
  apply ms2PairsFrom.induct mzCv imCv locate f
    (motive := fun win => ms2PairsFrom mzCv imCv locate f win =
      (List.range' win (min f.quadrupole_settings.isolation_mz.length
          f.quadrupole_settings.isolation_width.length - win)).map
        (fun w => (windowKey f w, windowTable mzCv imCv locate f w)))
  · intro x hx hw
    rw [ms2PairsFrom]
    have h0 : min f.quadrupole_settings.isolation_mz.length
        f.quadrupole_settings.isolation_width.length - x = 0 := by omega
    simp [hx, hw, h0]
  · intro x hx hw ih
    rw [ms2PairsFrom]
    have h1 : min f.quadrupole_settings.isolation_mz.length
          f.quadrupole_settings.isolation_width.length - x =
        (min f.quadrupole_settings.isolation_mz.length
          f.quadrupole_settings.isolation_width.length - (x + 1)) + 1 := by
      omega
    rw [h1, List.range'_succ]
    simp [hx, hw, ih]
  · intro x hx
    rw [ms2PairsFrom]
    have h0 : min f.quadrupole_settings.isolation_mz.length
        f.quadrupole_settings.isolation_width.length - x = 0 := by omega
    simp [hx, h0]

/-- The emptiness-guarded window loop is the keep-all loop with empty
window tables filtered out. -/
theorem ms2PairsNEFrom_eq_filter (mzCv imCv : ℚ → ℚ)
    (locate : ℕ → List ℕ → ℕ) (f : Frame) :
    ∀ win, ms2PairsNEFrom mzCv imCv locate f win =
      (ms2PairsFrom mzCv imCv locate f win).filter
        (fun p => !p.2.mz_values.isEmpty) := by
  apply ms2PairsNEFrom.induct mzCv imCv locate f
    (motive := fun win => ms2PairsNEFrom mzCv imCv locate f win =
      (ms2PairsFrom mzCv imCv locate f win).filter
        (fun p => !p.2.mz_values.isEmpty))
  · intro x hx hw
    rw [ms2PairsNEFrom, ms2PairsFrom]
    simp [hx, hw]
  · intro x hx hw hemp ih
    rw [ms2PairsNEFrom, ms2PairsFrom]
    simp [hx, hw, hemp, ih, List.filter_cons]
  · intro x hx hw hemp ih
    rw [ms2PairsNEFrom, ms2PairsFrom]
    simp [hx, hw, hemp, ih, List.filter_cons]
  · intro x hx
    rw [ms2PairsNEFrom, ms2PairsFrom]
    simp [hx]

/-- Every table in a keep-all pairs list is a window table; in
particular, one whose `mz_values` is empty is the empty table. -/
theorem mem_ms2PairsFrom (mzCv imCv : ℚ → ℚ) (locate : ℕ → List ℕ → ℕ)
    (f : Frame) (win : ℕ) (p : (ℕ × ℕ) × TimsTOFData)
    (hp : p ∈ ms2PairsFrom mzCv imCv locate f win) :
    ∃ w, p = (windowKey f w, windowTable mzCv imCv locate f w) := by
  rw [ms2PairsFrom_eq_map] at hp
  obtain ⟨w, _, hw⟩ := List.mem_map.mp hp
  exact ⟨w, hw.symm⟩

/-! # Scan locator equivalence -/

/-- Non-decreasing lists read monotonically through `getD`. -/
theorem getD_mono_of_chain' (so : List ℕ)
    (hc : List.Chain' (· ≤ ·) so) (i j : ℕ) (hij : i ≤ j)
    (hj : j < so.length) : so.getD i 0 ≤ so.getD j 0 := by
  have hp : so.Pairwise (· ≤ ·) := List.chain'_iff_pairwise.mp hc
  rcases eq_or_lt_of_le hij with h | h
  · subst h; exact le_refl _
  · have hi : i < so.length := lt_trans h hj
    rw [List.getD_eq_getElem so 0 hi, List.getD_eq_getElem so 0 hj]
    exact List.pairwise_iff_getElem.mp hp i j hi hj h

/-- The linear locator finds the window index `r` when window `r`
contains the position and no earlier window does. -/
theorem findFirstWindow_eq_some :
    ∀ (so : List ℕ) (t r : ℕ),
      (∀ s, s < r → ¬(so.getD s 0 ≤ t ∧ t < so.getD (s + 1) 0)) →
      so.getD r 0 ≤ t → t < so.getD (r + 1) 0 → r + 1 < so.length →
      findFirstWindow t so = some r := by
  intro so
  induction so with
  | nil => intro t r _ _ _ hlen; simp at hlen
  | cons a tail ih =>
      intro t r hmin ha hb hlen
      cases tail with
      | nil =>
          have h1 : (a :: ([] : List ℕ)).length = 1 := rfl
          omega
      | cons b rest =>
          cases r with
          | zero =>
              have ha2 : a ≤ t := by simpa using ha
              have hb2 : t < b := by simpa using hb
              rw [findFirstWindow]
              simp [ha2, hb2]
          | succ r2 =>
              rw [findFirstWindow, if_neg]
              · rw [ih t r2 (fun s hs => by
                    have := hmin (s + 1) (by omega)
                    simpa using this)
                  (by simpa using ha) (by simpa using hb)
                  (by simpa using hlen)]
                rfl
              · have := hmin 0 (by omega)
                simpa using this

/-- The branchless `binary_search` loop converges to the rightmost index
whose offset is `<=` the target, given one is inside the active window. -/
theorem bsLoop_reaches (so : List ℕ) (t : ℕ)
    (hc : List.Chain' (· ≤ ·) so) (r : ℕ) (hr : so.getD r 0 ≤ t)
    (hgr : ∀ j, r < j → j < so.length → t < so.getD j 0) :
    ∀ size base, 1 ≤ size → base + size ≤ so.length → base ≤ r →
      r < base + size → bsLoop so t base size = r := by
  intro size
  induction size using Nat.strong_induction_on with
  | _ size ih =>
    intro base h1 h2 h3 h4
    rw [bsLoop]
    by_cases hs : 1 < size
    · rw [dif_pos hs]
      show bsLoop so t
        (if t < so.getD (base + size / 2) 0 then base
          else base + size / 2) (size - size / 2) = r
      have hhalf1 : 1 ≤ size / 2 := by omega
      have hmidlt : base + size / 2 < so.length := by omega
      by_cases hlt : t < so.getD (base + size / 2) 0
      · rw [if_pos hlt]
        have hrmid : r < base + size / 2 := by
          by_contra hcon
          push_neg at hcon
          have := getD_mono_of_chain' so hc (base + size / 2) r hcon
            (by omega)
          omega
        exact ih (size - size / 2) (by omega) base (by omega) (by omega)
          h3 (by omega)
      · rw [if_neg hlt]
        push_neg at hlt
        have hmidr : base + size / 2 ≤ r := by
          by_contra hcon
          push_neg at hcon
          have := hgr (base + size / 2) hcon hmidlt
          omega
        exact ih (size - size / 2) (by omega) (base + size / 2) (by omega)
          (by omega) hmidr (by omega)
    · rw [dif_neg hs]
      omega

/-- For a valid in-range position on a non-decreasing offset table, both
locators return the rightmost scan whose starting offset is `<=` the
position. -/
theorem locators_agree_core (so : List ℕ) (t : ℕ)
    (hc : List.Chain' (· ≤ ·) so) (hlen : 2 ≤ so.length)
    (h0 : so.getD 0 0 ≤ t) (hlast : t < so.getD (so.length - 1) 0) :
    find_scan_for_index t so = find_scan_for_index_binary t so := by
  classical
  set P : ℕ → Prop := fun i => so.getD i 0 ≤ t with hP
  set r : ℕ := Nat.findGreatest P (so.length - 1) with hrdef
  have hPr : P r := Nat.findGreatest_spec (m := 0) (by omega) h0
  have hrle : r ≤ so.length - 1 := Nat.findGreatest_le _
  have hrlast : r ≠ so.length - 1 := by
    intro hcon
    have : so.getD (so.length - 1) 0 ≤ t := by
      rw [← hcon]; exact hPr
    omega
  have hrlt : r < so.length - 1 := lt_of_le_of_ne hrle hrlast
  have hgr : ∀ j, r < j → j < so.length → t < so.getD j 0 := by
    intro j hj hjlen
    rcases Nat.lt_or_ge j (so.length - 1) with hcase | hcase
    · have := Nat.findGreatest_is_greatest (P := P) hj (by omega)
      simpa [hP] using this
    · have hj2 : j = so.length - 1 := by omega
      rw [hj2]; exact hlast
  have hbin : find_scan_for_index_binary t so = r := by
    have hloop : bsLoop so t 0 so.length = r :=
      bsLoop_reaches so t hc r hPr hgr so.length 0 (by omega) (by omega)
        (by omega) (by omega)
    have hne : ¬so.length = 0 := by omega
    have hbs : rustBinarySearch so t =
        if so.getD r 0 = t then BSearchResult.found r
        else BSearchResult.notFound
          (r + if so.getD r 0 < t then 1 else 0) := by
      unfold rustBinarySearch
      rw [if_neg hne]
      show (if so.getD (bsLoop so t 0 so.length) 0 = t then
          BSearchResult.found (bsLoop so t 0 so.length)
        else BSearchResult.notFound ((bsLoop so t 0 so.length) +
          if so.getD (bsLoop so t 0 so.length) 0 < t then 1 else 0)) = _
      rw [hloop]
    unfold find_scan_for_index_binary
    rw [hbs]
    by_cases heq : so.getD r 0 = t
    · rw [if_pos heq]
    · have hlt2 : so.getD r 0 < t := lt_of_le_of_ne hPr heq
      rw [if_neg heq, if_pos hlt2]
      show r + 1 - 1 = r
      omega
  have hlin : find_scan_for_index t so = r := by
    unfold find_scan_for_index
    rw [findFirstWindow_eq_some so t r ?_ hPr ?_ (by omega)]
    · rfl
    · intro s hs hcon
      have hs1 : so.getD (s + 1) 0 ≤ so.getD r 0 :=
        getD_mono_of_chain' so hc (s + 1) r (by omega) (by omega)
      have : so.getD (s + 1) 0 ≤ t := le_trans hs1 hPr
      omega
    · exact hgr (r + 1) (by omega) (by omega)
  rw [hbin, hlin]

/-! # Generic glue lemmas for the aggregation folds -/

theorem foldl_upd_flatten {β : Type}
    (pairsOf : β → List (WinKey × TimsTOFData)) :
    ∀ (ss : List β) (m : MS2Map),
      ss.foldl (fun m2 s => (pairsOf s).foldl
        (fun m3 p => updEntry m3 p.1 p.2) m2) m =
      (ss.foldr (fun s l => pairsOf s ++ l) []).foldl
        (fun m3 p => updEntry m3 p.1 p.2) m := by
  intro ss
  induction ss with
  | nil => intro m; rfl
  | cons s ss ih =>
      intro m
      simp only [List.foldl_cons, List.foldr_cons, List.foldl_append, ih]

theorem updEntry_keys (m : MS2Map) (k : WinKey) (td : TimsTOFData) :
    (updEntry m k td).map Prod.fst =
      if k ∈ m.map Prod.fst then m.map Prod.fst
      else m.map Prod.fst ++ [k] := by
  induction m with
  | nil => simp [updEntry]
  | cons p rest ih =>
      obtain ⟨k2, e⟩ := p
      by_cases h : k2 = k
      · subst h; simp [updEntry]
      · by_cases hm : k ∈ rest.map Prod.fst <;>
          simp [updEntry, h, ih, hm, Ne.symm h]

theorem updEntry_keys_nodup (m : MS2Map) (k : WinKey) (td : TimsTOFData)
    (h : (m.map Prod.fst).Nodup) :
    ((updEntry m k td).map Prod.fst).Nodup := by
  rw [updEntry_keys]
  by_cases hm : k ∈ m.map Prod.fst
  · simpa [hm]
  · simp [hm, List.nodup_append, h]

theorem foldl_updEntry_keys_nodup (l : List (WinKey × TimsTOFData)) :
    ∀ m : MS2Map, (m.map Prod.fst).Nodup →
      (((l.foldl (fun m2 p => updEntry m2 p.1 p.2) m)).map
        Prod.fst).Nodup := by
  induction l with
  | nil => intro m h; exact h
  | cons p l ih =>
      intro m h
      exact ih _ (updEntry_keys_nodup m p.1 p.2 h)

theorem concatTables_filterMap_eq_tableAt (m : MS2Map) (k : WinKey)
    (h : (m.map Prod.fst).Nodup) :
    concatTables (m.filterMap
      (fun p => if p.1 = k then some p.2 else none)) = tableAt m k := by
  induction m with
  | nil => rfl
  | cons p rest ih =>
      obtain ⟨k2, e⟩ := p
      simp only [List.map_cons, List.nodup_cons] at h
      by_cases hk : k2 = k
      · subst hk
        have hrest : rest.filterMap
            (fun p => if p.1 = k2 then some p.2 else none) = [] := by
          rw [List.filterMap_eq_nil_iff]
          intro p hp
          have hne : ¬(p.1 = k2) := by
            intro hc
            exact h.1 (hc ▸ List.mem_map_of_mem Prod.fst hp)
          simp [hne]
        simp [List.filterMap_cons, hrest, concatTables_cons, tableAt,
          findEntry, TimsTOFData.extend_from_new, concatTables_nil]
      · simpa [List.filterMap_cons, hk, tableAt, findEntry, Ne.symm hk]
          using ih h.2

theorem chunksOf_join {α : Type} (k : ℕ) :
    ∀ l : List α, (chunksOf k l).foldr (fun c r => c ++ r) [] = l := by
  apply chunksOf.induct k
    (motive := fun l => (chunksOf k l).foldr (fun c r => c ++ r) [] = l)
  · rw [chunksOf]; rfl
  · intro a l ih
    rw [chunksOf]
    simp only [List.foldr_cons, ih]
    exact List.take_append_drop _ _

theorem foldr_append_split {β γ : Type} (F : β → List γ)
    (l1 l2 : List β) :
    (l1 ++ l2).foldr (fun f l => F f ++ l) [] =
      l1.foldr (fun f l => F f ++ l) [] ++
        l2.foldr (fun f l => F f ++ l) [] := by
  induction l1 with
  | nil => rfl
  | cons a l1 ih => simp [List.foldr_cons, ih]

theorem foldr_append_congr {β γ : Type} (F G : β → List γ)
    (l : List β) (h : ∀ f ∈ l, F f = G f) :
    l.foldr (fun f acc => F f ++ acc) [] =
      l.foldr (fun f acc => G f ++ acc) [] := by
  induction l with
  | nil => rfl
  | cons a l ih =>
      simp only [List.foldr_cons, h a (List.mem_cons_self a l),
        ih (fun f hf => h f (List.mem_cons_of_mem a hf))]

theorem concatTables_map_filter (P : Frame → Bool)
    (g : Frame → TimsTOFData) (l : List Frame) :
    concatTables (l.map (fun f => if P f then g f else TimsTOFData.new)) =
      concatTables ((l.filter P).map g) := by
  induction l with
  | nil => rfl
  | cons f l ih =>
      by_cases h : P f
      · simp [List.filter_cons_of_pos h, h, concatTables_cons, ih]
      · simp [List.filter_cons_of_neg (by simpa using h), h,
          concatTables_cons, ih, TimsTOFData.new_extend_from]

/-! # Locator congruence on well-formed frames -/

theorem mem_enumPeaks_lt (f : Frame) (p : ℕ × ℕ × ℕ)
    (hp : p ∈ enumPeaks f) : p.1 < f.tof_indices.length := by
  unfold enumPeaks at hp
  have h1 := List.mem_enum_iff_getElem?.mp hp
  by_contra hcon
  push_neg at hcon
  have hlen : (f.tof_indices.zip f.intensities).length ≤ p.1 := by
    rw [List.length_zip]; omega
  rw [List.getElem?_eq_none hlen] at h1
  exact Option.noConfusion h1

theorem locators_agree_of_WF (f : Frame) (hwf : frameWF f) (p : ℕ)
    (hp : p < f.tof_indices.length) :
    find_scan_for_index p f.scan_offsets =
      find_scan_for_index_binary p f.scan_offsets := by
  obtain ⟨hc, h0, hne, hlast, hpar⟩ := hwf
  have hpos : 0 < f.scan_offsets.length := List.length_pos.mpr hne
  have hlen : 2 ≤ f.scan_offsets.length := by
    by_contra hcon
    push_neg at hcon
    have h1 : f.scan_offsets.length = 1 := by omega
    rw [h1] at hlast
    have h00 : (1 : ℕ) - 1 = 0 := rfl
    rw [h00] at hlast
    omega
  exact locators_agree_core f.scan_offsets p hc hlen (by omega) (by omega)

theorem ms1Table_congr_WF (mzCv imCv : ℚ → ℚ) (f : Frame)
    (hwf : frameWF f) :
    ms1Table mzCv imCv find_scan_for_index f =
      ms1Table mzCv imCv find_scan_for_index_binary f := by
  unfold ms1Table
  apply List.foldl_ext
  intro d p hp
  have h := locators_agree_of_WF f hwf p.1 (mem_enumPeaks_lt f p hp)
  simp [peakRow, h]

theorem windowTable_congr_WF (mzCv imCv : ℚ → ℚ) (f : Frame) (win : ℕ)
    (hwf : frameWF f) :
    windowTable mzCv imCv find_scan_for_index f win =
      windowTable mzCv imCv find_scan_for_index_binary f win := by
  unfold windowTable
  apply List.foldl_ext
  intro d p hp
  have h := locators_agree_of_WF f hwf p.1 (mem_enumPeaks_lt f p hp)
  simp [peakRow, h]

theorem ms2PairsFrom_congr_WF (mzCv imCv : ℚ → ℚ) (f : Frame)
    (hwf : frameWF f) :
    ms2PairsFrom mzCv imCv find_scan_for_index f 0 =
      ms2PairsFrom mzCv imCv find_scan_for_index_binary f 0 := by
  rw [ms2PairsFrom_eq_map, ms2PairsFrom_eq_map]
  apply List.map_congr_left
  intro w _
  rw [windowTable_congr_WF mzCv imCv f w hwf]

theorem enumPeaks_length_eq (f : Frame)
    (hpar : f.intensities.length = f.tof_indices.length) :
    (enumPeaks f).length = f.tof_indices.length := by
  unfold enumPeaks
  rw [List.enum_length, List.length_zip]
  omega

theorem ms1TableV1_eq_ms1Table (mzCv imCv : ℚ → ℚ) (f : Frame)
    (hpar : f.intensities.length = f.tof_indices.length) :
    ms1TableV1 mzCv imCv f =
      ms1Table mzCv imCv find_scan_for_index_binary f := by
  rw [ms1TableV1_eq_mk, ms1Table_eq_mk]
  have hlen := enumPeaks_length_eq f hpar
  simp [List.map_const', hlen]

theorem processFrameV1_ms2 (mzCv imCv : ℚ → ℚ) (f : Frame) :
    (processFrameV1 mzCv imCv f).ms2 = ms2Contribution mzCv imCv f := by
  cases hms : f.ms_level <;> simp [processFrameV1, ms2Contribution, hms]

theorem processFrameV1_ms1 (mzCv imCv : ℚ → ℚ) (f : Frame)
    (hpar : f.intensities.length = f.tof_indices.length) :
    (processFrameV1 mzCv imCv f).ms1 = ms1Contribution mzCv imCv f := by
  cases hms : f.ms_level <;>
    simp [processFrameV1, ms1Contribution, hms,
      ms1TableV1_eq_ms1Table mzCv imCv f hpar]

theorem processFrameOriginal_ms2_WF (mzCv imCv : ℚ → ℚ) (f : Frame)
    (hwf : frameWF f) :
    (processFrameOriginal mzCv imCv f).ms2 = ms2Contribution mzCv imCv f := by
  cases hms : f.ms_level <;>
    simp [processFrameOriginal, ms2Contribution, hms,
      ms2PairsFrom_congr_WF mzCv imCv f hwf]

theorem processFrameOriginal_ms1_WF (mzCv imCv : ℚ → ℚ) (f : Frame)
    (hwf : frameWF f) :
    (processFrameOriginal mzCv imCv f).ms1 = ms1Contribution mzCv imCv f := by
  cases hms : f.ms_level <;>
    simp [processFrameOriginal, ms1Contribution, hms,
      ms1Table_congr_WF mzCv imCv f hwf]

/-! # Canonical forms of the v1 and original pipelines -/

theorem v1MS2Map_tableAt (mzCv imCv : ℚ → ℚ) (frames : List Frame)
    (k : WinKey) :
    tableAt (v1MS2Map mzCv imCv frames) k =
      canonicalTableAt mzCv imCv frames k := by
  unfold v1MS2Map v1Splits canonicalTableAt flattenContribs
  rw [foldl_upd_flatten (fun s : FrameSplit => s.ms2),
    tableAt_foldl_updEntry, List.foldr_map,
    foldr_append_congr (fun f => (processFrameV1 mzCv imCv f).ms2)
      (ms2Contribution mzCv imCv) frames
      (fun f _ => processFrameV1_ms2 mzCv imCv f)]
  simp [tableAt_nil, TimsTOFData.new_extend_from]

theorem v1_ms1_canonical (mzCv imCv : ℚ → ℚ) (frames : List Frame)
    (hpar : ∀ f ∈ frames,
      f.intensities.length = f.tof_indices.length) :
    (v1Splits mzCv imCv frames).foldl
        (fun acc s => acc.merge_from s.ms1) TimsTOFData.new =
      canonicalMS1 mzCv imCv frames := by
  unfold v1Splits canonicalMS1 concatTables
  rw [List.foldl_map, List.foldl_map]
  apply List.foldl_ext
  intro a f hf
  rw [TimsTOFData.merge_from_eq_extend_from,
    processFrameV1_ms1 mzCv imCv f (hpar f hf)]

theorem origMS2Map_tableAt (mzCv imCv : ℚ → ℚ) (frames : List Frame)
    (k : WinKey) (hwf : ∀ f ∈ frames, frameWF f) :
    tableAt (origMS2Map mzCv imCv frames) k =
      canonicalTableAt mzCv imCv frames k := by
  unfold origMS2Map canonicalTableAt flattenContribs
  have hfn : (fun m2 (p : WinKey × TimsTOFData) =>
        updEntryMerge m2 p.1 p.2) =
      (fun m2 p => updEntry m2 p.1 p.2) := by
    funext m2 p
    exact updEntryMerge_eq_updEntry m2 p.1 p.2
  rw [hfn, foldl_upd_flatten (fun s : FrameSplit => s.ms2),
    tableAt_foldl_updEntry, List.foldr_map,
    foldr_append_congr (fun f => (processFrameOriginal mzCv imCv f).ms2)
      (ms2Contribution mzCv imCv) frames
      (fun f hf => processFrameOriginal_ms2_WF mzCv imCv f (hwf f hf))]
  simp [tableAt_nil, TimsTOFData.new_extend_from]

theorem orig_ms1_canonical (mzCv imCv : ℚ → ℚ) (frames : List Frame)
    (hwf : ∀ f ∈ frames, frameWF f) :
    (frames.map (processFrameOriginal mzCv imCv)).foldl
        (fun acc s => acc.extend_from s.ms1) TimsTOFData.new =
      canonicalMS1 mzCv imCv frames := by
  unfold canonicalMS1 concatTables
  rw [List.foldl_map, List.foldl_map]
  apply List.foldl_ext
  intro a f hf
  rw [processFrameOriginal_ms1_WF mzCv imCv f (hwf f hf)]

/-! # Counting lemmas -/

theorem concatTables_mz_length (ts : List TimsTOFData) :
    (concatTables ts).mz_values.length =
      (ts.map (fun t => t.mz_values.length)).sum := by
  induction ts with
  | nil => rfl
  | cons t ts ih =>
      simp [concatTables_cons, TimsTOFData.extend_from, ih]

theorem ms1Table_mz_length (mzCv imCv : ℚ → ℚ)
    (locate : ℕ → List ℕ → ℕ) (f : Frame) :
    (ms1Table mzCv imCv locate f).mz_values.length =
      (enumPeaks f).length := by
  rw [ms1Table_eq_mk]
  simp

theorem windowTable_mz_length (mzCv imCv : ℚ → ℚ)
    (locate : ℕ → List ℕ → ℕ) (f : Frame) (win : ℕ) :
    (windowTable mzCv imCv locate f win).mz_values.length =
      ((enumPeaks f).filter (fun p =>
        scanInWindow f win (locate p.1 f.scan_offsets))).length := by
  rw [windowTable_eq_mk]
  simp

theorem dequantizeWindows_sum_len (m : MS2Map) :
    ((dequantizeWindows m).map (fun w => w.2.mz_values.length)).sum =
      (m.map (fun e => e.2.mz_values.length)).sum := by
  unfold dequantizeWindows
  rw [List.map_map]
  rfl

/-- Sum of the per-window table sizes of a keep-all pairs list. -/
theorem ms2PairsFrom_sum_len (mzCv imCv : ℚ → ℚ)
    (locate : ℕ → List ℕ → ℕ) (f : Frame) :
    ((ms2PairsFrom mzCv imCv locate f 0).map
        (fun p => p.2.mz_values.length)).sum =
      ((List.range (min f.quadrupole_settings.isolation_mz.length
          f.quadrupole_settings.isolation_width.length)).map
        (fun win => ((enumPeaks f).filter (fun p =>
          scanInWindow f win (locate p.1 f.scan_offsets))).length)).sum := by
  rw [ms2PairsFrom_eq_map, List.map_map, List.range_eq_range']
  simp only [Nat.sub_zero, Function.comp]
  congr 1
  apply List.map_congr_left
  intro w _
  exact windowTable_mz_length mzCv imCv locate f w

theorem sum_map_foldr_append {β γ : Type} (F : β → List γ) (g : γ → ℕ)
    (l : List β) :
    ((l.foldr (fun f acc => F f ++ acc) []).map g).sum =
      (l.map (fun f => ((F f).map g).sum)).sum := by
  induction l with
  | nil => rfl
  | cons a l ih => simp [List.foldr_cons, ih]

theorem sum_map_add {β : Type} (A B : β → ℕ) (l : List β) :
    (l.map (fun f => A f + B f)).sum = (l.map A).sum + (l.map B).sum := by
  induction l with
  | nil => rfl
  | cons a l ih => simp [ih]; omega

/-- The total row count of the v1 dataset, per frame. -/
theorem v1_total_canonical (mzCv imCv : ℚ → ℚ) (frames : List Frame)
    (hwf : ∀ f ∈ frames, frameWF f) :
    totalPeakCount (read_timstof_data_v1 mzCv imCv frames) =
      (frames.map (fun f =>
        (ms1Contribution mzCv imCv f).mz_values.length +
          ((ms2Contribution mzCv imCv f).map
            (fun p => p.2.mz_values.length)).sum)).sum := by
  unfold totalPeakCount
  simp only [read_timstof_data_v1]
  rw [v1_ms1_canonical mzCv imCv frames
      (fun f hf => (hwf f hf).2.2.2.2),
    dequantizeWindows_sum_len]
  unfold v1MS2Map v1Splits
  rw [foldl_upd_flatten (fun s : FrameSplit => s.ms2),
    sumLen_foldl_updEntry]
  simp only [List.map_nil, List.sum_nil, Nat.zero_add]
  rw [List.foldr_map,
    foldr_append_congr (fun f => (processFrameV1 mzCv imCv f).ms2)
      (ms2Contribution mzCv imCv) frames
      (fun f _ => processFrameV1_ms2 mzCv imCv f),
    sum_map_foldr_append]
  unfold canonicalMS1
  rw [concatTables_mz_length, List.map_map, sum_map_add]
  rfl

/-- The per-frame total equals the reference inclusion count on a
well-formed frame. -/
theorem perFrame_total_eq_reference (mzCv imCv : ℚ → ℚ) (f : Frame)
    (hwf : frameWF f) :
    (ms1Contribution mzCv imCv f).mz_values.length +
      ((ms2Contribution mzCv imCv f).map
        (fun p => p.2.mz_values.length)).sum =
      (match f.ms_level with
        | MSLevel.MS1 => (enumPeaks f).length
        | MSLevel.MS2 =>
            ((List.range (min f.quadrupole_settings.isolation_mz.length
                f.quadrupole_settings.isolation_width.length)).map
              (fun win => ((enumPeaks f).filter (fun p =>
                scanInWindow f win
                  (find_scan_for_index p.1 f.scan_offsets))).length)).sum
        | MSLevel.Unknown => 0) := by
  cases hms : f.ms_level
  · simp [ms1Contribution, ms2Contribution, hms,
      ms1Table_mz_length, TimsTOFData.new]
  · simp only [ms1Contribution, ms2Contribution, hms, TimsTOFData.new,
      List.length_nil, Nat.zero_add]
    rw [ms2PairsFrom_sum_len]
    congr 1
    apply List.map_congr_left
    intro win _
    congr 1
    apply List.filter_congr
    intro p hp
    rw [locators_agree_of_WF f hwf p.1 (mem_enumPeaks_lt f p hp)]
  · simp [ms1Contribution, ms2Contribution, hms, TimsTOFData.new]

/-- The total row count of the original dataset, per frame (no
well-formedness needed: its own linear locator is the reference). -/
theorem orig_total_eq_reference (mzCv imCv : ℚ → ℚ)
    (frames : List Frame) :
    totalPeakCount (read_timstof_data mzCv imCv frames) =
      referencePassCount frames := by
  unfold totalPeakCount referencePassCount
  simp only [read_timstof_data]
  have hms1 : (frames.map (processFrameOriginal mzCv imCv)).foldl
      (fun acc s => acc.extend_from s.ms1) TimsTOFData.new =
      concatTables (frames.map
        (fun f => (processFrameOriginal mzCv imCv f).ms1)) := by
    unfold concatTables
    rw [List.foldl_map, List.foldl_map]
  rw [hms1, concatTables_mz_length, List.map_map,
    dequantizeWindows_sum_len]
  unfold origMS2Map
  have hfn : (fun m2 (p : WinKey × TimsTOFData) =>
        updEntryMerge m2 p.1 p.2) =
      (fun m2 p => updEntry m2 p.1 p.2) := by
    funext m2 p
    exact updEntryMerge_eq_updEntry m2 p.1 p.2
  rw [hfn, foldl_upd_flatten (fun s : FrameSplit => s.ms2),
    sumLen_foldl_updEntry]
  simp only [List.map_nil, List.sum_nil, Nat.zero_add]
  rw [List.foldr_map, sum_map_foldr_append, ← sum_map_add]
  congr 1
  apply List.map_congr_left
  intro f _
  cases hms : f.ms_level
  · simp [Function.comp, processFrameOriginal, hms, ms1Table_mz_length,
      TimsTOFData.new]
  · simp only [Function.comp, processFrameOriginal, hms, TimsTOFData.new,
      List.length_nil, Nat.zero_add]
    rw [ms2PairsFrom_sum_len]
  · simp [Function.comp, processFrameOriginal, hms, TimsTOFData.new]

/-! # Dropping empty windows does not change bucket contents -/

theorem concat_filterMap_filter_ne (k : WinKey) :
    ∀ pairs : List (WinKey × TimsTOFData),
      (∀ p ∈ pairs, p.2.mz_values.isEmpty = true →
        p.2 = TimsTOFData.new) →
      concatTables ((pairs.filter
          (fun p => !p.2.mz_values.isEmpty)).filterMap
        (fun p => if p.1 = k then some p.2 else none)) =
      concatTables (pairs.filterMap
        (fun p => if p.1 = k then some p.2 else none)) := by
  intro pairs
  induction pairs with
  | nil => intro _; rfl
  | cons p l ih =>
      intro h
      have hrest := ih (fun q hq he => h q (List.mem_cons_of_mem _ hq) he)
      by_cases hemp : p.2.mz_values.isEmpty = true
      · have hnew := h p (List.mem_cons_self p l) hemp
        rw [List.filter_cons_of_neg (by simp [hemp]), hrest]
        by_cases hk : p.1 = k
        · simp [List.filterMap_cons, hk, hnew, concatTables_cons,
            TimsTOFData.new_extend_from]
        · simp [List.filterMap_cons, hk]
      · rw [List.filter_cons_of_pos (by simpa using hemp)]
        by_cases hk : p.1 = k <;>
          simp [List.filterMap_cons, hk, concatTables_cons, hrest]

theorem ms2PairsFrom_new_premise (mzCv imCv : ℚ → ℚ)
    (locate : ℕ → List ℕ → ℕ) (f : Frame) :
    ∀ p ∈ ms2PairsFrom mzCv imCv locate f 0,
      p.2.mz_values.isEmpty = true → p.2 = TimsTOFData.new := by
  intro p hp he
  obtain ⟨w, hw⟩ := mem_ms2PairsFrom mzCv imCv locate f 0 p hp
  rw [hw]
  apply windowTable_eq_new_of_mz_nil
  have : p.2.mz_values = [] := List.isEmpty_iff.mp he
  rw [hw] at this
  exact this

theorem concat_filterMap_contribNE (mzCv imCv : ℚ → ℚ) (f : Frame)
    (k : WinKey) :
    concatTables ((ms2ContributionNE mzCv imCv f).filterMap
        (fun p => if p.1 = k then some p.2 else none)) =
      concatTables ((ms2Contribution mzCv imCv f).filterMap
        (fun p => if p.1 = k then some p.2 else none)) := by
  cases hms : f.ms_level
  · simp [ms2ContributionNE, ms2Contribution, hms]
  · simp only [ms2ContributionNE, ms2Contribution, hms]
    rw [ms2PairsNEFrom_eq_filter]
    exact concat_filterMap_filter_ne k _
      (ms2PairsFrom_new_premise mzCv imCv find_scan_for_index_binary f)
  · simp [ms2ContributionNE, ms2Contribution, hms]

theorem concat_filterMap_flatten_congr
    (F G : Frame → List (WinKey × TimsTOFData)) (k : WinKey)
    (h : ∀ f, concatTables ((F f).filterMap
        (fun p => if p.1 = k then some p.2 else none)) =
      concatTables ((G f).filterMap
        (fun p => if p.1 = k then some p.2 else none))) :
    ∀ frames : List Frame,
      concatTables (((frames.foldr (fun f l => F f ++ l) [])).filterMap
        (fun p => if p.1 = k then some p.2 else none)) =
      concatTables ((frames.foldr (fun f l => G f ++ l) []).filterMap
        (fun p => if p.1 = k then some p.2 else none)) := by
  intro frames
  induction frames with
  | nil => rfl
  | cons f frames ih =>
      simp only [List.foldr_cons, List.filterMap_append,
        concatTables_append, h f, ih]

theorem canonicalNE_tableAt (mzCv imCv : ℚ → ℚ) (frames : List Frame)
    (k : WinKey) :
    concatTables (((frames.foldr
        (fun f l => ms2ContributionNE mzCv imCv f ++ l) [])).filterMap
      (fun p => if p.1 = k then some p.2 else none)) =
      canonicalTableAt mzCv imCv frames k := by
  unfold canonicalTableAt flattenContribs
  exact concat_filterMap_flatten_congr (ms2ContributionNE mzCv imCv)
    (ms2Contribution mzCv imCv) k
    (fun f => concat_filterMap_contribNE mzCv imCv f k) frames

/-! # Canonical forms of v2 and v4 -/

theorem v2_fold_snd (mzCv imCv : ℚ → ℚ) :
    ∀ (frames : List Frame) (acc : List TimsTOFData × MS2Map),
      (frames.foldl (v2Step mzCv imCv) acc).2 =
        (frames.foldr (fun f l => ms2ContributionNE mzCv imCv f ++ l)
          []).foldl (fun m p => updEntry m p.1 p.2) acc.2 := by
  intro frames
  induction frames with
  | nil => intro acc; rfl
  | cons f frames ih =>
      intro acc
      rw [List.foldl_cons, ih, List.foldr_cons, List.foldl_append]
      congr 1
      cases hms : f.ms_level <;> simp [v2Step, hms, ms2ContributionNE]

theorem v2_fold_fst (mzCv imCv : ℚ → ℚ) :
    ∀ (frames : List Frame) (acc : List TimsTOFData × MS2Map),
      (frames.foldl (v2Step mzCv imCv) acc).1 =
        acc.1 ++ (frames.filter
          (fun f => decide (f.ms_level = MSLevel.MS1))).map
          (ms1Table mzCv imCv find_scan_for_index_binary) := by
  intro frames
  induction frames with
  | nil => intro acc; simp
  | cons f frames ih =>
      intro acc
      rw [List.foldl_cons, ih]
      cases hms : f.ms_level <;>
        simp [v2Step, hms, List.filter_cons]

theorem v2MS2Map_tableAt (mzCv imCv : ℚ → ℚ) (frames : List Frame)
    (k : WinKey) :
    tableAt (v2MS2Map mzCv imCv frames) k =
      canonicalTableAt mzCv imCv frames k := by
  unfold v2MS2Map
  rw [v2_fold_snd, tableAt_foldl_updEntry]
  simp only [tableAt_nil, TimsTOFData.new_extend_from]
  exact canonicalNE_tableAt mzCv imCv frames k

theorem canonicalMS1_eq_filter (mzCv imCv : ℚ → ℚ)
    (frames : List Frame) :
    canonicalMS1 mzCv imCv frames =
      concatTables ((frames.filter
          (fun f => decide (f.ms_level = MSLevel.MS1))).map
        (ms1Table mzCv imCv find_scan_for_index_binary)) := by
  unfold canonicalMS1
  rw [← concatTables_map_filter]
  congr 1
  apply List.map_congr_left
  intro f _
  cases hms : f.ms_level <;> simp [ms1Contribution, hms]

theorem v2_ms1_canonical (mzCv imCv : ℚ → ℚ) (frames : List Frame) :
    (frames.foldl (v2Step mzCv imCv) ([], [])).1.foldl
        (fun g c => g.extend_from c) TimsTOFData.new =
      canonicalMS1 mzCv imCv frames := by
  rw [v2_fold_fst, canonicalMS1_eq_filter]
  rfl

theorem v4_fold_snd (mzCv imCv : ℚ → ℚ) :
    ∀ (frames : List Frame) (acc : TimsTOFData × MS2Map),
      (frames.foldl (v4Step mzCv imCv) acc).2 =
        (frames.foldr (fun f l => ms2ContributionNE mzCv imCv f ++ l)
          []).foldl (fun m p => updEntry m p.1 p.2) acc.2 := by
  intro frames
  induction frames with
  | nil => intro acc; rfl
  | cons f frames ih =>
      intro acc
      rw [List.foldl_cons, ih, List.foldr_cons, List.foldl_append]
      congr 1
      cases hms : f.ms_level <;> simp [v4Step, hms, ms2ContributionNE]

theorem v4_fold_fst (mzCv imCv : ℚ → ℚ) :
    ∀ (frames : List Frame) (acc : TimsTOFData × MS2Map),
      (frames.foldl (v4Step mzCv imCv) acc).1 =
        acc.1.extend_from (canonicalMS1 mzCv imCv frames) := by
  intro frames
  induction frames with
  | nil =>
      intro acc
      simp [canonicalMS1, concatTables_nil, TimsTOFData.extend_from_new]
  | cons f frames ih =>
      intro acc
      rw [List.foldl_cons, ih]
      unfold canonicalMS1
      cases hms : f.ms_level <;>
        simp [v4Step, hms, concatTables_cons, ms1Contribution,
          TimsTOFData.extend_from_assoc, TimsTOFData.new_extend_from]

theorem v4MS2Map_tableAt (mzCv imCv : ℚ → ℚ) (frames : List Frame)
    (k : WinKey) :
    tableAt (v4MS2Map mzCv imCv frames) k =
      canonicalTableAt mzCv imCv frames k := by
  unfold v4MS2Map
  rw [v4_fold_snd, tableAt_foldl_updEntry]
  simp only [tableAt_nil, TimsTOFData.new_extend_from]
  exact canonicalNE_tableAt mzCv imCv frames k

/-! # Canonical forms of the chunked pipelines v3, v5 and v6 -/

theorem updEntryMerge_fun_eq :
    (fun (m : MS2Map) (p : WinKey × TimsTOFData) =>
      updEntryMerge m p.1 p.2) = (fun m p => updEntry m p.1 p.2) := by
  funext m p
  exact updEntryMerge_eq_updEntry m p.1 p.2

theorem foldl_push_eq_extend_ms1 (mzCv imCv : ℚ → ℚ) (f : Frame)
    (init : TimsTOFData) :
    (enumPeaks f).foldl (fun d p =>
        d.push (peakRow mzCv imCv find_scan_for_index_binary f p)) init =
      init.extend_from
        (ms1Table mzCv imCv find_scan_for_index_binary f) := by
  rw [foldl_push_general (peakRow mzCv imCv find_scan_for_index_binary f),
    ms1Table_eq_mk]
  simp [peakRow]

theorem tableAt_fold_maps :
    ∀ (ms : List MS2Map) (g : MS2Map) (k : WinKey),
      (∀ m ∈ ms, (m.map Prod.fst).Nodup) →
      tableAt (ms.foldl (fun g2 m => m.foldl
          (fun m2 p => updEntry m2 p.1 p.2) g2) g) k =
        (tableAt g k).extend_from
          (concatTables (ms.map (fun m => tableAt m k))) := by
  intro ms
  induction ms with
  | nil =>
      intro g k _
      simp [concatTables_nil, TimsTOFData.extend_from_new]
  | cons m ms ih =>
      intro g k h
      rw [List.foldl_cons,
        ih _ _ (fun m2 hm2 => h m2 (List.mem_cons_of_mem _ hm2)),
        tableAt_foldl_updEntry,
        concatTables_filterMap_eq_tableAt m k
          (h m (List.mem_cons_self m ms))]
      simp [concatTables_cons, TimsTOFData.extend_from_assoc]

theorem concat_chunks_ms1 (g : Frame → TimsTOFData) (n : ℕ) :
    ∀ l : List Frame,
      concatTables ((chunksOf n l).map
        (fun chunk => concatTables (chunk.map g))) =
      concatTables (l.map g) := by
  apply chunksOf.induct n (motive := fun l =>
    concatTables ((chunksOf n l).map
      (fun chunk => concatTables (chunk.map g))) =
    concatTables (l.map g))
  · rw [chunksOf]; rfl
  · intro a l ih
    rw [chunksOf]
    simp only [List.map_cons]
    rw [concatTables_cons, ih, ← concatTables_append, ← List.map_append,
      List.take_append_drop, List.map_cons]

theorem concat_chunks_filterMap
    (F : Frame → List (WinKey × TimsTOFData)) (k : WinKey) (n : ℕ) :
    ∀ l : List Frame,
      concatTables ((chunksOf n l).map (fun chunk =>
        concatTables ((chunk.foldr (fun f a => F f ++ a) []).filterMap
          (fun p => if p.1 = k then some p.2 else none)))) =
      concatTables ((l.foldr (fun f a => F f ++ a) []).filterMap
        (fun p => if p.1 = k then some p.2 else none)) := by
  apply chunksOf.induct n (motive := fun l =>
    concatTables ((chunksOf n l).map (fun chunk =>
      concatTables ((chunk.foldr (fun f a => F f ++ a) []).filterMap
        (fun p => if p.1 = k then some p.2 else none)))) =
    concatTables ((l.foldr (fun f a => F f ++ a) []).filterMap
      (fun p => if p.1 = k then some p.2 else none)))
  · rw [chunksOf]; rfl
  · intro a l ih
    rw [chunksOf]
    simp only [List.map_cons]
    rw [concatTables_cons, ih]
    conv_rhs => rw [← List.take_append_drop (max 1 n) (a :: l)]
    rw [foldr_append_split, List.filterMap_append, concatTables_append]

theorem v3Chunk_aux (mzCv imCv : ℚ → ℚ) :
    ∀ (chunk : List Frame) (acc : TimsTOFData × MS2Map),
      chunk.foldl (fun acc f =>
        match f.ms_level with
        | .MS1 => ((enumPeaks f).foldl
            (fun d p =>
              d.push (peakRow mzCv imCv find_scan_for_index_binary f p))
            acc.1, acc.2)
        | .MS2 => (acc.1,
            (ms2PairsFrom mzCv imCv find_scan_for_index_binary f 0).foldl
              (fun m p => updEntryMerge m p.1 p.2) acc.2)
        | .Unknown => acc) acc =
      (acc.1.extend_from
          (concatTables (chunk.map (ms1Contribution mzCv imCv))),
       (chunk.foldr (fun f l => ms2Contribution mzCv imCv f ++ l)
          []).foldl (fun m p => updEntry m p.1 p.2) acc.2) := by
  intro chunk
  induction chunk with
  | nil =>
      intro acc
      simp [concatTables_nil, TimsTOFData.extend_from_new]
  | cons f chunk ih =>
      intro acc
      rw [List.foldl_cons, ih, List.foldr_cons, List.foldl_append]
      cases hms : f.ms_level
      · simp [foldl_push_eq_extend_ms1, ms1Contribution, ms2Contribution,
          hms, concatTables_cons, TimsTOFData.extend_from_assoc]
      · simp [updEntryMerge_fun_eq, ms1Contribution, ms2Contribution,
          hms, concatTables_cons, TimsTOFData.new_extend_from]
      · simp [ms1Contribution, ms2Contribution, hms, concatTables_cons,
          TimsTOFData.new_extend_from]

theorem v3Chunk_eq (mzCv imCv : ℚ → ℚ) (chunk : List Frame) :
    v3Chunk mzCv imCv chunk =
      (concatTables (chunk.map (ms1Contribution mzCv imCv)),
       (chunk.foldr (fun f l => ms2Contribution mzCv imCv f ++ l)
          []).foldl (fun m p => updEntry m p.1 p.2) []) := by
  unfold v3Chunk
  rw [v3Chunk_aux]
  simp [TimsTOFData.new_extend_from]

theorem foldl_chunkpair_snd (cs : List (TimsTOFData × MS2Map))
    (g : MS2Map) :
    cs.foldl (fun g2 c => c.2.foldl
        (fun m p => updEntry m p.1 p.2) g2) g =
      (cs.map Prod.snd).foldl (fun g2 m => m.foldl
        (fun m2 p => updEntry m2 p.1 p.2) g2) g := by
  rw [List.foldl_map]

theorem v3MS2Map_tableAt (mzCv imCv : ℚ → ℚ) (frames : List Frame)
    (k : WinKey) :
    tableAt (v3MS2Map mzCv imCv frames) k =
      canonicalTableAt mzCv imCv frames k := by
  unfold v3MS2Map
  rw [updEntryMerge_fun_eq, foldl_chunkpair_snd, tableAt_fold_maps _ _ _
    (by
      intro m hm
      rw [List.map_map] at hm
      obtain ⟨chunk, _, hchunk⟩ := List.mem_map.mp hm
      rw [← hchunk]
      simp only [Function.comp, v3Chunk_eq]
      exact foldl_updEntry_keys_nodup _ [] (by simp))]
  simp only [tableAt_nil, TimsTOFData.new_extend_from, List.map_map]
  have hmap : ((chunksOf (max 1 (frames.length / 128)) frames).map
      ((fun m => tableAt m k) ∘ Prod.snd ∘ v3Chunk mzCv imCv)) =
      ((chunksOf (max 1 (frames.length / 128)) frames).map
        (fun chunk => concatTables (((chunk.foldr
          (fun f a => ms2Contribution mzCv imCv f ++ a) [])).filterMap
          (fun p => if p.1 = k then some p.2 else none)))) := by
    apply List.map_congr_left
    intro chunk _
    simp only [Function.comp, v3Chunk_eq]
    rw [tableAt_foldl_updEntry]
    simp [tableAt_nil, TimsTOFData.new_extend_from]
  rw [hmap, concat_chunks_filterMap]
  rfl

theorem v3_ms1_canonical (mzCv imCv : ℚ → ℚ) (frames : List Frame) :
    ((chunksOf (max 1 (frames.length / 128)) frames).map
        (v3Chunk mzCv imCv)).foldl
      (fun g c => g.merge_from c.1) TimsTOFData.new =
      canonicalMS1 mzCv imCv frames := by
  have h1 : ∀ cs : List (TimsTOFData × MS2Map),
      cs.foldl (fun g c => g.merge_from c.1) TimsTOFData.new =
        concatTables (cs.map Prod.fst) := by
    intro cs
    unfold concatTables
    rw [List.foldl_map]
    apply List.foldl_ext
    intro a c _
    rfl
  rw [h1, List.map_map]
  have h2 : ((chunksOf (max 1 (frames.length / 128)) frames).map
      (Prod.fst ∘ v3Chunk mzCv imCv)) =
      ((chunksOf (max 1 (frames.length / 128)) frames).map
        (fun chunk =>
          concatTables (chunk.map (ms1Contribution mzCv imCv)))) := by
    apply List.map_congr_left
    intro chunk _
    simp [Function.comp, v3Chunk_eq]
  rw [h2, concat_chunks_ms1]
  rfl

theorem v6Chunk_aux (mzCv imCv : ℚ → ℚ) :
    ∀ (chunk : List Frame) (acc : TimsTOFData × MS2Map),
      chunk.foldl (fun acc f =>
        match f.ms_level with
        | .MS1 => ((enumPeaks f).foldl
            (fun d p =>
              d.push (peakRow mzCv imCv find_scan_for_index_binary f p))
            acc.1, acc.2)
        | .MS2 => (acc.1,
            (ms2PairsNEFrom mzCv imCv find_scan_for_index_binary
                f 0).foldl
              (fun m p => updEntry m p.1 p.2) acc.2)
        | .Unknown => acc) acc =
      (acc.1.extend_from
          (concatTables (chunk.map (ms1Contribution mzCv imCv))),
       (chunk.foldr (fun f l => ms2ContributionNE mzCv imCv f ++ l)
          []).foldl (fun m p => updEntry m p.1 p.2) acc.2) := by
  intro chunk
  induction chunk with
  | nil =>
      intro acc
      simp [concatTables_nil, TimsTOFData.extend_from_new]
  | cons f chunk ih =>
      intro acc
      rw [List.foldl_cons, ih, List.foldr_cons, List.foldl_append]
      cases hms : f.ms_level
      · simp [foldl_push_eq_extend_ms1, ms1Contribution,
          ms2ContributionNE, hms, concatTables_cons,
          TimsTOFData.extend_from_assoc]
      · simp [ms1Contribution, ms2ContributionNE, hms, concatTables_cons,
          TimsTOFData.new_extend_from]
      · simp [ms1Contribution, ms2ContributionNE, hms, concatTables_cons,
          TimsTOFData.new_extend_from]

theorem v6Chunk_eq (mzCv imCv : ℚ → ℚ) (chunk : List Frame) :
    v6Chunk mzCv imCv chunk =
      (concatTables (chunk.map (ms1Contribution mzCv imCv)),
       (chunk.foldr (fun f l => ms2ContributionNE mzCv imCv f ++ l)
          []).foldl (fun m p => updEntry m p.1 p.2) []) := by
  unfold v6Chunk
  rw [v6Chunk_aux]
  simp [TimsTOFData.new_extend_from]

theorem v6MS2Map_tableAt (mzCv imCv : ℚ → ℚ) (numaNodes : ℕ)
    (frames : List Frame) (k : WinKey) :
    tableAt (v6MS2Map mzCv imCv numaNodes frames) k =
      canonicalTableAt mzCv imCv frames k := by
  unfold v6MS2Map
  rw [foldl_chunkpair_snd, tableAt_fold_maps _ _ _
    (by
      intro m hm
      rw [List.map_map] at hm
      obtain ⟨chunk, _, hchunk⟩ := List.mem_map.mp hm
      rw [← hchunk]
      simp only [Function.comp, v6Chunk_eq]
      exact foldl_updEntry_keys_nodup _ [] (by simp))]
  simp only [tableAt_nil, TimsTOFData.new_extend_from, List.map_map]
  have hmap : (((chunksOf ((frames.length + numaNodes - 1) / numaNodes)
      frames)).map
      ((fun m => tableAt m k) ∘ Prod.snd ∘ v6Chunk mzCv imCv)) =
      (((chunksOf ((frames.length + numaNodes - 1) / numaNodes)
        frames)).map
        (fun chunk => concatTables (((chunk.foldr
          (fun f a => ms2ContributionNE mzCv imCv f ++ a) [])).filterMap
          (fun p => if p.1 = k then some p.2 else none)))) := by
    apply List.map_congr_left
    intro chunk _
    simp only [Function.comp, v6Chunk_eq]
    rw [tableAt_foldl_updEntry]
    simp [tableAt_nil, TimsTOFData.new_extend_from]
  rw [hmap, concat_chunks_filterMap]
  exact canonicalNE_tableAt mzCv imCv frames k

theorem v6_ms1_canonical (mzCv imCv : ℚ → ℚ) (numaNodes : ℕ)
    (frames : List Frame) :
    ((chunksOf ((frames.length + numaNodes - 1) / numaNodes) frames).map
        (v6Chunk mzCv imCv)).foldl
      (fun g c => g.extend_from c.1) TimsTOFData.new =
      canonicalMS1 mzCv imCv frames := by
  have h1 : ∀ cs : List (TimsTOFData × MS2Map),
      cs.foldl (fun g c => g.extend_from c.1) TimsTOFData.new =
        concatTables (cs.map Prod.fst) := by
    intro cs
    unfold concatTables
    rw [List.foldl_map]
  rw [h1, List.map_map]
  have h2 : ((chunksOf ((frames.length + numaNodes - 1) / numaNodes)
      frames).map (Prod.fst ∘ v6Chunk mzCv imCv)) =
      ((chunksOf ((frames.length + numaNodes - 1) / numaNodes)
        frames).map
        (fun chunk =>
          concatTables (chunk.map (ms1Contribution mzCv imCv)))) := by
    apply List.map_congr_left
    intro chunk _
    simp [Function.comp, v6Chunk_eq]
  rw [h2, concat_chunks_ms1]
  rfl

theorem foldr_flatten_filter {γ : Type} (P : Frame → Bool)
    (F : Frame → List γ) (l : List Frame) :
    (l.filter P).foldr (fun f a => F f ++ a) [] =
      l.foldr (fun f a => (if P f then F f else []) ++ a) [] := by
  induction l with
  | nil => rfl
  | cons f l ih =>
      by_cases h : P f
      · rw [List.filter_cons_of_pos h]
        simp [h, ih]
      · rw [List.filter_cons_of_neg (by simpa using h)]
        simp [h, ih]

theorem v5MS2Map_tableAt (mzCv imCv : ℚ → ℚ) (frames : List Frame)
    (k : WinKey) :
    tableAt (v5MS2Map mzCv imCv frames) k =
      canonicalTableAt mzCv imCv frames k := by
  unfold v5MS2Map
  rw [foldl_upd_flatten (fun f =>
      ms2PairsNEFrom mzCv imCv find_scan_for_index_binary f 0),
    tableAt_foldl_updEntry]
  simp only [tableAt_nil, TimsTOFData.new_extend_from]
  rw [foldr_flatten_filter (fun f => decide (f.ms_level = MSLevel.MS2))
      (fun f => ms2PairsNEFrom mzCv imCv find_scan_for_index_binary f 0),
    foldr_append_congr _ (ms2ContributionNE mzCv imCv) frames
      (fun f _ => by
        cases hms : f.ms_level <;> simp [ms2ContributionNE, hms])]
  exact canonicalNE_tableAt mzCv imCv frames k

theorem foldl_ms1chunk (mzCv imCv : ℚ → ℚ) :
    ∀ (chunk : List Frame) (init : TimsTOFData),
      chunk.foldl (fun d f => (enumPeaks f).foldl
        (fun d2 p =>
          d2.push (peakRow mzCv imCv find_scan_for_index_binary f p)) d)
        init =
      init.extend_from (concatTables
        (chunk.map (ms1Table mzCv imCv find_scan_for_index_binary))) := by
  intro chunk
  induction chunk with
  | nil =>
      intro init
      simp [concatTables_nil, TimsTOFData.extend_from_new]
  | cons f chunk ih =>
      intro init
      rw [List.foldl_cons, ih, foldl_push_eq_extend_ms1,
        TimsTOFData.extend_from_assoc, List.map_cons, concatTables_cons]

theorem v5_ms1_canonical (mzCv imCv : ℚ → ℚ) (frames : List Frame) :
    (v5MS1Chunks mzCv imCv frames).foldl
        (fun g c => g.extend_from c) TimsTOFData.new =
      canonicalMS1 mzCv imCv frames := by
  unfold v5MS1Chunks
  have h1 : ∀ cs : List TimsTOFData,
      cs.foldl (fun g c => g.extend_from c) TimsTOFData.new =
        concatTables cs := by
    intro cs; rfl
  rw [h1]
  have h2 : ∀ chunks : List (List Frame),
      chunks.map (fun chunk => chunk.foldl (fun d f =>
        (enumPeaks f).foldl (fun d2 p =>
          d2.push (peakRow mzCv imCv find_scan_for_index_binary f p)) d)
        TimsTOFData.new) =
      chunks.map (fun chunk => concatTables
        (chunk.map (ms1Table mzCv imCv find_scan_for_index_binary))) := by
    intro chunks
    apply List.map_congr_left
    intro chunk _
    rw [foldl_ms1chunk, TimsTOFData.new_extend_from]
  rw [h2, concat_chunks_ms1, canonicalMS1_eq_filter]

/-! # Value invariants of the keyed accumulators -/

theorem mem_updEntry_pred (Q : TimsTOFData → Prop)
    (hQ : ∀ a b, Q a → Q b → Q (a.extend_from b)) (m : MS2Map)
    (k : WinKey) (td : TimsTOFData) (hm : ∀ p ∈ m, Q p.2) (htd : Q td) :
    ∀ p ∈ updEntry m k td, Q p.2 := by
  induction m with
  | nil =>
      intro p hp
      simp only [updEntry, List.mem_singleton] at hp
      rw [hp]
      exact htd
  | cons q rest ih =>
      obtain ⟨k2, e⟩ := q
      intro p hp
      by_cases h2 : k2 = k
      · subst h2
        rw [updEntry, if_pos rfl] at hp
        rcases List.mem_cons.mp hp with hp | hp
        · rw [hp]
          exact hQ e td (hm (k2, e) (List.mem_cons_self _ _)) htd
        · exact hm p (List.mem_cons_of_mem _ hp)
      · rw [updEntry, if_neg h2] at hp
        rcases List.mem_cons.mp hp with hp | hp
        · rw [hp]
          exact hm (k2, e) (List.mem_cons_self _ _)
        · exact ih (fun q hq => hm q (List.mem_cons_of_mem _ hq)) p hp

theorem mem_foldl_updEntry_pred (Q : TimsTOFData → Prop)
    (hQ : ∀ a b, Q a → Q b → Q (a.extend_from b)) :
    ∀ (l : List (WinKey × TimsTOFData)) (m : MS2Map),
      (∀ q ∈ l, Q q.2) → (∀ p ∈ m, Q p.2) →
      ∀ p ∈ l.foldl (fun m2 q => updEntry m2 q.1 q.2) m, Q p.2 := by
  intro l
  induction l with
  | nil => intro m _ hm p hp; exact hm p hp
  | cons q l ih =>
      intro m hl hm p hp
      exact ih _ (fun q2 hq2 => hl q2 (List.mem_cons_of_mem _ hq2))
        (mem_updEntry_pred Q hQ m q.1 q.2 hm
          (hl q (List.mem_cons_self _ _))) p hp

theorem mem_foldr_flatten {γ : Type} (F : Frame → List γ)
    (l : List Frame) (x : γ)
    (hx : x ∈ l.foldr (fun f a => F f ++ a) []) :
    ∃ f ∈ l, x ∈ F f := by
  induction l with
  | nil => simp at hx
  | cons f l ih =>
      simp only [List.foldr_cons, List.mem_append] at hx
      rcases hx with hx | hx
      · exact ⟨f, List.mem_cons_self _ _, hx⟩
      · obtain ⟨f2, hf2, hx2⟩ := ih hx
        exact ⟨f2, List.mem_cons_of_mem _ hf2, hx2⟩

theorem mem_ms2PairsNEFrom_ne (mzCv imCv : ℚ → ℚ)
    (locate : ℕ → List ℕ → ℕ) (f : Frame) (win : ℕ)
    (p : WinKey × TimsTOFData) (hp : p ∈ ms2PairsNEFrom mzCv imCv locate f win) :
    p.2.mz_values ≠ [] := by
  rw [ms2PairsNEFrom_eq_filter] at hp
  have h2 := List.of_mem_filter hp
  intro hc
  rw [hc] at h2
  simp at h2

theorem mem_ms2ContributionNE_ne (mzCv imCv : ℚ → ℚ) (f : Frame)
    (p : WinKey × TimsTOFData) (hp : p ∈ ms2ContributionNE mzCv imCv f) :
    p.2.mz_values ≠ [] := by
  unfold ms2ContributionNE at hp
  cases hms : f.ms_level <;> rw [hms] at hp
  · simp at hp
  · exact mem_ms2PairsNEFrom_ne mzCv imCv find_scan_for_index_binary f 0
      p hp
  · simp at hp

theorem extend_mz_ne (a b : TimsTOFData) (ha : a.mz_values ≠ [])
    (hb : b.mz_values ≠ []) : (a.extend_from b).mz_values ≠ [] := by
  simp only [TimsTOFData.extend_from]
  intro hc
  rcases List.append_eq_nil.mp hc with ⟨h1, _⟩
  exact ha h1

theorem mem_dequantizeWindows (m : MS2Map)
    (w : (ℚ × ℚ) × TimsTOFData) (hw : w ∈ dequantizeWindows m) :
    ∃ p ∈ m, w.2 = p.2 := by
  unfold dequantizeWindows at hw
  obtain ⟨p, hp, hpe⟩ := List.mem_map.mp hw
  exact ⟨p, hp, by rw [← hpe]⟩

/-! # Rounding characterization for quantize -/

theorem roundAway_close (q : ℚ) :
    |(roundAwayFromZero q : ℚ) - q| ≤ 1 / 2 := by
  unfold roundAwayFromZero
  by_cases h : 0 ≤ q
  · rw [if_pos h]
    have h1 : (⌊q + 1 / 2⌋ : ℚ) ≤ q + 1 / 2 := Int.floor_le _
    have h2 : q + 1 / 2 - 1 < (⌊q + 1 / 2⌋ : ℚ) := Int.sub_one_lt_floor _
    rw [abs_le]
    constructor <;> push_cast <;> linarith
  · rw [if_neg h]
    have h1 : (⌊-q + 1 / 2⌋ : ℚ) ≤ -q + 1 / 2 := Int.floor_le _
    have h2 : -q + 1 / 2 - 1 < (⌊-q + 1 / 2⌋ : ℚ) := Int.sub_one_lt_floor _
    rw [abs_le]
    constructor <;> push_cast <;> linarith

theorem roundAway_tie (q : ℚ)
    (h : |(roundAwayFromZero q : ℚ) - q| = 1 / 2) :
    |q| ≤ |(roundAwayFromZero q : ℚ)| := by
  unfold roundAwayFromZero at h ⊢
  by_cases hq : 0 ≤ q
  · rw [if_pos hq] at h ⊢
    have h2 : q + 1 / 2 - 1 < (⌊q + 1 / 2⌋ : ℚ) := Int.sub_one_lt_floor _
    have h3 : (⌊q + 1 / 2⌋ : ℚ) = q + 1 / 2 := by
      rcases abs_eq (by norm_num : (0:ℚ) ≤ 1 / 2) |>.mp h with h4 | h4
      · linarith
      · linarith
    rw [abs_of_nonneg hq, abs_of_nonneg (by linarith : (0:ℚ) ≤ (⌊q + 1 / 2⌋ : ℚ))]
    linarith
  · rw [if_neg hq] at h ⊢
    push_neg at hq
    have h2 : -q + 1 / 2 - 1 < (⌊-q + 1 / 2⌋ : ℚ) := Int.sub_one_lt_floor _
    have h3 : (⌊-q + 1 / 2⌋ : ℚ) = -q + 1 / 2 := by
      rw [abs_sub_comm] at h
      have h5 : ((-⌊-q + 1 / 2⌋ : ℤ) : ℚ) = -(⌊-q + 1 / 2⌋ : ℚ) := by
        push_cast; ring
      rw [h5] at h
      rcases abs_eq (by norm_num : (0:ℚ) ≤ 1 / 2) |>.mp h with h4 | h4
      · linarith
      · linarith
    have h6 : ((-⌊-q + 1 / 2⌋ : ℤ) : ℚ) = -(-q + 1 / 2) := by
      push_cast
      linarith
    rw [h6, abs_of_neg hq, abs_of_neg (by linarith : -(-q + 1 / 2) < 0)]
    linarith

theorem castU32_of_range (z : ℤ) (h0 : 0 ≤ z) (h1 : z ≤ (u32Max : ℤ)) :
    ((castU32 z : ℕ) : ℤ) = z := by
  unfold castU32
  rw [min_eq_left h1]
  exact Int.toNat_of_nonneg h0

/-! # Generic flattening, balance and value helpers for the claims -/

theorem mem_foldr_append {β γ : Type} (F : β → List γ) (l : List β)
    (x : γ) (hx : x ∈ l.foldr (fun b a => F b ++ a) []) :
    ∃ b ∈ l, x ∈ F b := by
  induction l with
  | nil => simp at hx
  | cons b l ih =>
      simp only [List.foldr_cons, List.mem_append] at hx
      rcases hx with hx | hx
      · exact ⟨b, List.mem_cons_self _ _, hx⟩
      · obtain ⟨b2, hb2, hx2⟩ := ih hx
        exact ⟨b2, List.mem_cons_of_mem _ hb2, hx2⟩

theorem mem_fold_maps_pred (Q : TimsTOFData → Prop)
    (hQ : ∀ a b, Q a → Q b → Q (a.extend_from b)) :
    ∀ (cs : List MS2Map) (g : MS2Map),
      (∀ m ∈ cs, ∀ p ∈ m, Q p.2) → (∀ p ∈ g, Q p.2) →
      ∀ p ∈ cs.foldl (fun g2 m => m.foldl
        (fun m2 q => updEntry m2 q.1 q.2) g2) g, Q p.2 := by
  intro cs
  induction cs with
  | nil => intro g _ hg p hp; exact hg p hp
  | cons m cs ih =>
      intro g hcs hg p hp
      exact ih _ (fun m2 hm2 => hcs m2 (List.mem_cons_of_mem _ hm2))
        (mem_foldl_updEntry_pred Q hQ m g
          (hcs m (List.mem_cons_self _ _)) hg) p hp

theorem v2MS2Map_entries_ne (mzCv imCv : ℚ → ℚ) (frames : List Frame) :
    ∀ p ∈ v2MS2Map mzCv imCv frames, p.2.mz_values ≠ [] := by
  intro p hp
  unfold v2MS2Map at hp
  rw [v2_fold_snd] at hp
  refine mem_foldl_updEntry_pred (fun td => td.mz_values ≠ [])
    (fun a b ha hb => extend_mz_ne a b ha hb) _ [] ?_ (by simp) p hp
  intro q hq
  obtain ⟨f, hf, hqf⟩ := mem_foldr_append
    (ms2ContributionNE mzCv imCv) frames q hq
  exact mem_ms2ContributionNE_ne mzCv imCv f q hqf

theorem v4MS2Map_entries_ne (mzCv imCv : ℚ → ℚ) (frames : List Frame) :
    ∀ p ∈ v4MS2Map mzCv imCv frames, p.2.mz_values ≠ [] := by
  intro p hp
  unfold v4MS2Map at hp
  rw [v4_fold_snd] at hp
  refine mem_foldl_updEntry_pred (fun td => td.mz_values ≠ [])
    (fun a b ha hb => extend_mz_ne a b ha hb) _ [] ?_ (by simp) p hp
  intro q hq
  obtain ⟨f, hf, hqf⟩ := mem_foldr_append
    (ms2ContributionNE mzCv imCv) frames q hq
  exact mem_ms2ContributionNE_ne mzCv imCv f q hqf

theorem v5MS2Map_entries_ne (mzCv imCv : ℚ → ℚ) (frames : List Frame) :
    ∀ p ∈ v5MS2Map mzCv imCv frames, p.2.mz_values ≠ [] := by
  intro p hp
  unfold v5MS2Map at hp
  rw [foldl_upd_flatten (fun f =>
    ms2PairsNEFrom mzCv imCv find_scan_for_index_binary f 0)] at hp
  refine mem_foldl_updEntry_pred (fun td => td.mz_values ≠ [])
    (fun a b ha hb => extend_mz_ne a b ha hb) _ [] ?_ (by simp) p hp
  intro q hq
  obtain ⟨f, hf, hqf⟩ := mem_foldr_append
    (fun f => ms2PairsNEFrom mzCv imCv find_scan_for_index_binary f 0)
    (frames.filter (fun f => decide (f.ms_level = MSLevel.MS2))) q hq
  exact mem_ms2PairsNEFrom_ne mzCv imCv find_scan_for_index_binary f 0
    q hqf

theorem v6MS2Map_entries_ne (mzCv imCv : ℚ → ℚ) (numaNodes : ℕ)
    (frames : List Frame) :
    ∀ p ∈ v6MS2Map mzCv imCv numaNodes frames, p.2.mz_values ≠ [] := by
  intro p hp
  unfold v6MS2Map at hp
  rw [foldl_chunkpair_snd] at hp
  refine mem_fold_maps_pred (fun td => td.mz_values ≠ [])
    (fun a b ha hb => extend_mz_ne a b ha hb) _ [] ?_ (by simp) p hp
  intro m hm q hq
  rw [List.map_map] at hm
  obtain ⟨chunk, hchunk, hmc⟩ := List.mem_map.mp hm
  rw [← hmc] at hq
  simp only [Function.comp, v6Chunk_eq] at hq
  refine mem_foldl_updEntry_pred (fun td => td.mz_values ≠ [])
    (fun a b ha hb => extend_mz_ne a b ha hb) _ [] ?_ (by simp) q hq
  intro r hr
  obtain ⟨f, hf, hrf⟩ := mem_foldr_append
    (ms2ContributionNE mzCv imCv) chunk r hr
  exact mem_ms2ContributionNE_ne mzCv imCv f r hrf

theorem ms1Contribution_balanced (mzCv imCv : ℚ → ℚ) (f : Frame) :
    (ms1Contribution mzCv imCv f).balanced := by
  cases hms : f.ms_level <;>
    simp [ms1Contribution, hms, ms1Table_balanced,
      TimsTOFData.new_balanced]

theorem mem_ms2Contribution_balanced (mzCv imCv : ℚ → ℚ) (f : Frame)
    (q : WinKey × TimsTOFData) (hq : q ∈ ms2Contribution mzCv imCv f) :
    q.2.balanced := by
  unfold ms2Contribution at hq
  cases hms : f.ms_level <;> rw [hms] at hq
  · simp at hq
  · obtain ⟨w, hw⟩ := mem_ms2PairsFrom mzCv imCv
      find_scan_for_index_binary f 0 q hq
    rw [hw]
    exact windowTable_balanced mzCv imCv find_scan_for_index_binary f w
  · simp at hq

theorem foldl_merge_balanced {β : Type} (g : β → TimsTOFData) :
    ∀ (l : List β) (init : TimsTOFData), init.balanced →
      (∀ s ∈ l, (g s).balanced) →
      (l.foldl (fun acc s => acc.merge_from (g s)) init).balanced := by
  intro l
  induction l with
  | nil => intro init h _; exact h
  | cons s l ih =>
      intro init h hl
      rw [List.foldl_cons]
      refine ih _ ?_ (fun s2 hs2 => hl s2 (List.mem_cons_of_mem _ hs2))
      rw [TimsTOFData.merge_from_eq_extend_from]
      exact TimsTOFData.extend_from_balanced _ _ h
        (hl s (List.mem_cons_self _ _))

theorem v1MS2Map_entries_balanced (mzCv imCv : ℚ → ℚ)
    (frames : List Frame) :
    ∀ p ∈ v1MS2Map mzCv imCv frames, p.2.balanced := by
  intro p hp
  unfold v1MS2Map at hp
  rw [foldl_upd_flatten (fun s : FrameSplit => s.ms2)] at hp
  refine mem_foldl_updEntry_pred TimsTOFData.balanced
    (fun a b ha hb => TimsTOFData.extend_from_balanced a b ha hb) _ []
    ?_ (by simp) p hp
  intro q hq
  obtain ⟨s, hs, hqs⟩ := mem_foldr_append (fun s : FrameSplit => s.ms2)
    (v1Splits mzCv imCv frames) q hq
  unfold v1Splits at hs
  obtain ⟨f, hf, hsf⟩ := List.mem_map.mp hs
  rw [← hsf, processFrameV1_ms2] at hqs
  exact mem_ms2Contribution_balanced mzCv imCv f q hqs

/-! # Concrete evaluations used by the counterexamples

`bsLoop`, `ms2PairsFrom` and `ms2PairsNEFrom` recurse on a measure, so
these small instances are settled by rewriting with their equations and
closed forms instead of by kernel reduction. -/

theorem binloc_12_0 : find_scan_for_index_binary 0 [1, 2] = 0 := by
  have h1 : bsLoop [1, 2] 0 0 1 = 0 := by
    rw [bsLoop]
    simp
  have h2 : bsLoop [1, 2] 0 0 2 = 0 := by
    rw [bsLoop]
    simp [h1]
  simp [find_scan_for_index_binary, rustBinarySearch, h2]

theorem binloc_01_0 : find_scan_for_index_binary 0 [0, 1] = 0 := by
  have h1 : bsLoop [0, 1] 0 0 1 = 0 := by
    rw [bsLoop]
    simp
  have h2 : bsLoop [0, 1] 0 0 2 = 0 := by
    rw [bsLoop]
    simp [h1]
  simp [find_scan_for_index_binary, rustBinarySearch, h2]

theorem exEmpty_windowTable_bin :
    windowTable id id find_scan_for_index_binary exFrameMS2Empty 0 =
      TimsTOFData.new := by
  have hen : enumPeaks exFrameMS2Empty = [(0, (100, 7))] := by decide
  have hsw : scanInWindow exFrameMS2Empty 0 0 = false := by decide
  unfold windowTable
  rw [hen, List.foldl_cons, List.foldl_nil]
  rw [show find_scan_for_index_binary ((0 : ℕ), ((100 : ℕ), (7 : ℕ))).1
      exFrameMS2Empty.scan_offsets = 0 from binloc_01_0]
  simp [hsw]

theorem exEmpty_pairs_bin :
    ms2PairsFrom id id find_scan_for_index_binary exFrameMS2Empty 0 =
      [(windowKey exFrameMS2Empty 0, TimsTOFData.new)] := by
  rw [ms2PairsFrom_eq_map]
  show [(windowKey exFrameMS2Empty 0,
    windowTable id id find_scan_for_index_binary exFrameMS2Empty 0)] = _
  rw [exEmpty_windowTable_bin]

theorem exEmpty_pairs_lin :
    ms2PairsFrom id id find_scan_for_index exFrameMS2Empty 0 =
      [(windowKey exFrameMS2Empty 0, TimsTOFData.new)] := by
  rw [ms2PairsFrom_eq_map]
  rfl

theorem exEmpty_pairsNE_bin :
    ms2PairsNEFrom id id find_scan_for_index_binary exFrameMS2Empty 0 =
      [] := by
  rw [ms2PairsNEFrom_eq_filter, exEmpty_pairs_bin]
  rfl

theorem v1_exEmpty_windows :
    (read_timstof_data_v1 id id [exFrameMS2Empty]).ms2_windows =
      dequantizeWindows
        [(windowKey exFrameMS2Empty 0, TimsTOFData.new)] := by
  show dequantizeWindows
      ((ms2PairsFrom id id find_scan_for_index_binary exFrameMS2Empty
        0).foldl (fun m2 p => updEntry m2 p.1 p.2) []) = _
  rw [exEmpty_pairs_bin]
  rfl

theorem v2_exEmpty_windows :
    (read_timstof_data_v2 id id [exFrameMS2Empty]).ms2_windows = [] := by
  show dequantizeWindows
      ((ms2PairsNEFrom id id find_scan_for_index_binary exFrameMS2Empty
        0).foldl (fun m p => updEntry m p.1 p.2) []) = []
  rw [exEmpty_pairsNE_bin]
  rfl

theorem orig_exEmpty_windows :
    (read_timstof_data id id [exFrameMS2Empty]).ms2_windows =
      dequantizeWindows
        [(windowKey exFrameMS2Empty 0, TimsTOFData.new)] := by
  show dequantizeWindows
      ((ms2PairsFrom id id find_scan_for_index exFrameMS2Empty 0).foldl
        (fun m2 p => updEntryMerge m2 p.1 p.2) []) = _
  rw [exEmpty_pairs_lin]
  rfl

/-! # Well-formedness and rounding facts for the concrete frames

`List.Chain'` and `Int.floor` on rationals carry instances that do not
reduce in the kernel, so these facts are settled by `simp` and `norm_num`
and referenced as terms. -/

theorem exFrameMS1_WF : frameWF exFrameMS1 := by
  simp [frameWF, exFrameMS1]

theorem exFrameMS2_WF : frameWF exFrameMS2 := by
  simp [frameWF, exFrameMS2]

theorem exFrameMS2Empty_WF : frameWF exFrameMS2Empty := by
  simp [frameWF, exFrameMS2Empty]

theorem exFrames12_WF : ∀ f ∈ [exFrameMS1, exFrameMS2], frameWF f := by
  intro f hf
  rcases List.mem_cons.mp hf with h | h
  · rw [h]; exact exFrameMS1_WF
  · rw [List.mem_singleton.mp h]; exact exFrameMS2_WF

theorem chain_12 : List.Chain' (· ≤ ·) [1, 2] := by simp

theorem chain_025 : List.Chain' (· ≤ ·) [0, 2, 5] := by simp

theorem roundAway_neg1 :
    roundAwayFromZero ((-1 : ℚ) * 10000) = -10000 := by
  norm_num [roundAwayFromZero]

theorem quantize_neg1 : ((quantize (-1) : ℕ) : ℤ) = 0 := by
  norm_num [quantize, castU32, roundAwayFromZero, u32Max]

theorem roundAway_half_nonneg :
    0 ≤ roundAwayFromZero ((1 / 20000 : ℚ) * 10000) := by
  norm_num [roundAwayFromZero]

theorem roundAway_half_le :
    roundAwayFromZero ((1 / 20000 : ℚ) * 10000) ≤ (u32Max : ℤ) := by
  norm_num [roundAwayFromZero, u32Max]

/-! # The claims -/

/-- C1: conservation of peak rows.  On inputs whose frames satisfy the
specification's frame-data validity (non-decreasing scan offsets starting
at 0 and covering the peak count, intensity array parallel to the TOF
array), the total row count of v1's output and of the original sequential
reader's output both equal the reference inclusion count
`referencePassCount`: no peak is gained or lost by the parallel merge,
for any frame list and any converters. -/
theorem c1_conservation_total (mzCv imCv : ℚ → ℚ) (frames : List Frame)
    (hwf : ∀ f ∈ frames, frameWF f) :
    totalPeakCount (read_timstof_data_v1 mzCv imCv frames) =
      referencePassCount frames ∧
    totalPeakCount (read_timstof_data mzCv imCv frames) =
      referencePassCount frames := by
  refine ⟨?_, orig_total_eq_reference mzCv imCv frames⟩
  rw [v1_total_canonical mzCv imCv frames hwf]
  unfold referencePassCount
  congr 1
  apply List.map_congr_left
  intro f hf
  exact perFrame_total_eq_reference mzCv imCv f (hwf f hf)

/-- C1 witness: the conservation theorem applied to a concrete dataset of
one well-formed MS1 frame and one well-formed MS2 frame. -/
theorem c1_conservation_total_witness :
    (∀ f ∈ [exFrameMS1, exFrameMS2], frameWF f) ∧
    (totalPeakCount (read_timstof_data_v1 id id [exFrameMS1, exFrameMS2]) =
        referencePassCount [exFrameMS1, exFrameMS2] ∧
      totalPeakCount (read_timstof_data id id [exFrameMS1, exFrameMS2]) =
        referencePassCount [exFrameMS1, exFrameMS2]) :=
  ⟨exFrames12_WF,
    c1_conservation_total id id [exFrameMS1, exFrameMS2] exFrames12_WF⟩

/-- C2 counterexample: on a well-formed MS2 frame whose only isolation
window collects zero peaks, v1 (keep-all) and the original reader return
one MS2 window entry while v2 (emptiness guard) returns none, so the
strategies' outputs differ in content — an entry is present in one and
absent in the other — not merely in row order. -/
theorem c2_strategy_equivalence_cex :
    frameWF exFrameMS2Empty ∧
    (read_timstof_data_v1 id id [exFrameMS2Empty]).ms2_windows.length =
      1 ∧
    (read_timstof_data_v2 id id [exFrameMS2Empty]).ms2_windows.length =
      0 ∧
    (read_timstof_data id id [exFrameMS2Empty]).ms2_windows.length = 1 :=
  ⟨exFrameMS2Empty_WF,
   by rw [v1_exEmpty_windows]; rfl,
   by rw [v2_exEmpty_windows]; rfl,
   by rw [orig_exEmpty_windows]; rfl⟩

/-- C2: strategy equivalence, amended.  On well-formed frames all seven
strategies agree on the MS1 table and, key for key, on the content of the
MS2 bucket: both equal the canonical forms determined by the per-frame
contributions.  The full sorted-content equality of the claim fails only
because the keep-all strategies (v1, v3, the original) may additionally
return keys holding empty tables that the guarded strategies (v2, v4,
v5, v6) drop — see the counterexample. -/
theorem c2_strategy_equivalence (mzCv imCv : ℚ → ℚ)
    (frames : List Frame) (numaNodes : ℕ) (k : WinKey)
    (hwf : ∀ f ∈ frames, frameWF f) :
    ((read_timstof_data mzCv imCv frames).ms1_data =
        canonicalMS1 mzCv imCv frames ∧
      (read_timstof_data_v1 mzCv imCv frames).ms1_data =
        canonicalMS1 mzCv imCv frames ∧
      (read_timstof_data_v2 mzCv imCv frames).ms1_data =
        canonicalMS1 mzCv imCv frames ∧
      (read_timstof_data_v3 mzCv imCv frames).ms1_data =
        canonicalMS1 mzCv imCv frames ∧
      (read_timstof_data_v4 mzCv imCv frames).ms1_data =
        canonicalMS1 mzCv imCv frames ∧
      (read_timstof_data_v5 mzCv imCv frames).ms1_data =
        canonicalMS1 mzCv imCv frames ∧
      (read_timstof_data_v6_hpc mzCv imCv numaNodes frames).ms1_data =
        canonicalMS1 mzCv imCv frames) ∧
    (tableAt (origMS2Map mzCv imCv frames) k =
        canonicalTableAt mzCv imCv frames k ∧
      tableAt (v1MS2Map mzCv imCv frames) k =
        canonicalTableAt mzCv imCv frames k ∧
      tableAt (v2MS2Map mzCv imCv frames) k =
        canonicalTableAt mzCv imCv frames k ∧
      tableAt (v3MS2Map mzCv imCv frames) k =
        canonicalTableAt mzCv imCv frames k ∧
      tableAt (v4MS2Map mzCv imCv frames) k =
        canonicalTableAt mzCv imCv frames k ∧
      tableAt (v5MS2Map mzCv imCv frames) k =
        canonicalTableAt mzCv imCv frames k ∧
      tableAt (v6MS2Map mzCv imCv numaNodes frames) k =
        canonicalTableAt mzCv imCv frames k) := by
  refine ⟨⟨orig_ms1_canonical mzCv imCv frames hwf,
      v1_ms1_canonical mzCv imCv frames
        (fun f hf => (hwf f hf).2.2.2.2),
      v2_ms1_canonical mzCv imCv frames,
      v3_ms1_canonical mzCv imCv frames,
      ?_,
      v5_ms1_canonical mzCv imCv frames,
      v6_ms1_canonical mzCv imCv numaNodes frames⟩,
    origMS2Map_tableAt mzCv imCv frames k hwf,
    v1MS2Map_tableAt mzCv imCv frames k,
    v2MS2Map_tableAt mzCv imCv frames k,
    v3MS2Map_tableAt mzCv imCv frames k,
    v4MS2Map_tableAt mzCv imCv frames k,
    v5MS2Map_tableAt mzCv imCv frames k,
    v6MS2Map_tableAt mzCv imCv numaNodes frames k⟩
  show (frames.foldl (v4Step mzCv imCv)
      (TimsTOFData.new, ([] : MS2Map))).1 = canonicalMS1 mzCv imCv frames
  rw [v4_fold_fst]
  exact TimsTOFData.new_extend_from _

/-- C2 witness: the amended strategy-equivalence theorem applied to a
concrete two-frame dataset, two NUMA nodes and the key of the MS2
frame's isolation window. -/
theorem c2_strategy_equivalence_witness :
    (∀ f ∈ [exFrameMS1, exFrameMS2], frameWF f) ∧
    (((read_timstof_data id id [exFrameMS1, exFrameMS2]).ms1_data =
        canonicalMS1 id id [exFrameMS1, exFrameMS2] ∧
      (read_timstof_data_v1 id id [exFrameMS1, exFrameMS2]).ms1_data =
        canonicalMS1 id id [exFrameMS1, exFrameMS2] ∧
      (read_timstof_data_v2 id id [exFrameMS1, exFrameMS2]).ms1_data =
        canonicalMS1 id id [exFrameMS1, exFrameMS2] ∧
      (read_timstof_data_v3 id id [exFrameMS1, exFrameMS2]).ms1_data =
        canonicalMS1 id id [exFrameMS1, exFrameMS2] ∧
      (read_timstof_data_v4 id id [exFrameMS1, exFrameMS2]).ms1_data =
        canonicalMS1 id id [exFrameMS1, exFrameMS2] ∧
      (read_timstof_data_v5 id id [exFrameMS1, exFrameMS2]).ms1_data =
        canonicalMS1 id id [exFrameMS1, exFrameMS2] ∧
      (read_timstof_data_v6_hpc id id 2 [exFrameMS1, exFrameMS2]).ms1_data =
        canonicalMS1 id id [exFrameMS1, exFrameMS2]) ∧
    (tableAt (origMS2Map id id [exFrameMS1, exFrameMS2])
        (windowKey exFrameMS2 0) =
        canonicalTableAt id id [exFrameMS1, exFrameMS2]
          (windowKey exFrameMS2 0) ∧
      tableAt (v1MS2Map id id [exFrameMS1, exFrameMS2])
        (windowKey exFrameMS2 0) =
        canonicalTableAt id id [exFrameMS1, exFrameMS2]
          (windowKey exFrameMS2 0) ∧
      tableAt (v2MS2Map id id [exFrameMS1, exFrameMS2])
        (windowKey exFrameMS2 0) =
        canonicalTableAt id id [exFrameMS1, exFrameMS2]
          (windowKey exFrameMS2 0) ∧
      tableAt (v3MS2Map id id [exFrameMS1, exFrameMS2])
        (windowKey exFrameMS2 0) =
        canonicalTableAt id id [exFrameMS1, exFrameMS2]
          (windowKey exFrameMS2 0) ∧
      tableAt (v4MS2Map id id [exFrameMS1, exFrameMS2])
        (windowKey exFrameMS2 0) =
        canonicalTableAt id id [exFrameMS1, exFrameMS2]
          (windowKey exFrameMS2 0) ∧
      tableAt (v5MS2Map id id [exFrameMS1, exFrameMS2])
        (windowKey exFrameMS2 0) =
        canonicalTableAt id id [exFrameMS1, exFrameMS2]
          (windowKey exFrameMS2 0) ∧
      tableAt (v6MS2Map id id 2 [exFrameMS1, exFrameMS2])
        (windowKey exFrameMS2 0) =
        canonicalTableAt id id [exFrameMS1, exFrameMS2]
          (windowKey exFrameMS2 0))) :=
  ⟨exFrames12_WF,
    c2_strategy_equivalence id id [exFrameMS1, exFrameMS2] 2
      (windowKey exFrameMS2 0) exFrames12_WF⟩

/-- C3 counterexample: the pair `(position, offsets) = (0, [1, 2])` is
valid in the claim's sense — the offsets are non-decreasing with two
entries and the position is strictly below the final offset — yet the
linear locator answers its fallback `len - 1 = 1` while the binary
variant answers `0`; equivalence additionally needs the data invariant
that the first offset is at most the position. -/
theorem c3_scan_locator_cex :
    List.Chain' (· ≤ ·) [1, 2] ∧ 2 ≤ ([1, 2] : List ℕ).length ∧
    0 < ([1, 2] : List ℕ).getD (([1, 2] : List ℕ).length - 1) 0 ∧
    find_scan_for_index 0 [1, 2] = 1 ∧
    find_scan_for_index_binary 0 [1, 2] = 0 ∧
    find_scan_for_index 0 [1, 2] ≠ find_scan_for_index_binary 0 [1, 2] :=
  ⟨chain_12, by decide, by decide, by decide, binloc_12_0,
   by rw [binloc_12_0]; decide⟩

/-- C3: scan-locator equivalence, amended.  On offset arrays that also
satisfy the data invariant that the first offset is at most the position
(scan offsets start at 0, so every valid position qualifies), the linear
and binary-search locators return the same scan index. -/
theorem c3_scan_locator_equivalence (position : ℕ) (offsets : List ℕ)
    (hc : List.Chain' (· ≤ ·) offsets) (hlen : 2 ≤ offsets.length)
    (h0 : offsets.getD 0 0 ≤ position)
    (hlast : position < offsets.getD (offsets.length - 1) 0) :
    find_scan_for_index position offsets =
      find_scan_for_index_binary position offsets :=
  locators_agree_core offsets position hc hlen h0 hlast

/-- C3 witness: the locator equivalence applied to position 3 in the
offset array `[0, 2, 5]`. -/
theorem c3_scan_locator_witness :
    (List.Chain' (· ≤ ·) [0, 2, 5] ∧ 2 ≤ ([0, 2, 5] : List ℕ).length ∧
      ([0, 2, 5] : List ℕ).getD 0 0 ≤ 3 ∧
      3 < ([0, 2, 5] : List ℕ).getD (([0, 2, 5] : List ℕ).length - 1) 0) ∧
    find_scan_for_index 3 [0, 2, 5] =
      find_scan_for_index_binary 3 [0, 2, 5] :=
  ⟨⟨chain_025, by decide, by decide, by decide⟩,
    c3_scan_locator_equivalence 3 [0, 2, 5] chain_025 (by decide)
      (by decide) (by decide)⟩

/-- C4: keyed window accumulation.  For every input, every converter pair
and every isolation key, the bucket v1's DashMap accumulation holds under
that key is exactly the concatenation of all per-frame window tables
emitted under that key, and its row count is the sum of their row counts;
the same holds for the original reader's HashMap accumulation
(accumulate, never overwrite). -/
theorem c4_window_accumulation (mzCv imCv : ℚ → ℚ) (frames : List Frame)
    (k : WinKey) :
    tableAt (v1MS2Map mzCv imCv frames) k =
      concatTables (v1WindowTablesUnder mzCv imCv frames k) ∧
    (tableAt (v1MS2Map mzCv imCv frames) k).mz_values.length =
      ((v1WindowTablesUnder mzCv imCv frames k).map
        (fun t => t.mz_values.length)).sum ∧
    tableAt (origMS2Map mzCv imCv frames) k =
      concatTables (origWindowTablesUnder mzCv imCv frames k) ∧
    (tableAt (origMS2Map mzCv imCv frames) k).mz_values.length =
      ((origWindowTablesUnder mzCv imCv frames k).map
        (fun t => t.mz_values.length)).sum := by
  have h1 : tableAt (v1MS2Map mzCv imCv frames) k =
      concatTables (v1WindowTablesUnder mzCv imCv frames k) := by
    unfold v1MS2Map v1WindowTablesUnder v1Splits
    rw [foldl_upd_flatten (fun s : FrameSplit => s.ms2),
      tableAt_foldl_updEntry]
    simp [tableAt_nil, TimsTOFData.new_extend_from]
  have h2 : tableAt (origMS2Map mzCv imCv frames) k =
      concatTables (origWindowTablesUnder mzCv imCv frames k) := by
    unfold origMS2Map origWindowTablesUnder
    rw [updEntryMerge_fun_eq,
      foldl_upd_flatten (fun s : FrameSplit => s.ms2),
      tableAt_foldl_updEntry]
    simp [tableAt_nil, TimsTOFData.new_extend_from]
  refine ⟨h1, ?_, h2, ?_⟩
  · rw [h1, concatTables_mz_length]
  · rw [h2, concatTables_mz_length]

/-- C5 counterexample: v1 — named by the claim's sources — returns a key
mapped to an empty table when a well-formed frame's only isolation window
collects zero peaks, so "for every input, the returned MS2WindowSet never
contains a key mapped to an empty peak table" fails for the keep-all
strategies (v1, v3 and the original reader). -/
theorem c5_window_nondegeneracy_cex :
    frameWF exFrameMS2Empty ∧
    ((read_timstof_data_v1 id id [exFrameMS2Empty]).ms2_windows.any
      (fun w => w.2.mz_values.isEmpty)) = true :=
  ⟨exFrameMS2Empty_WF, by rw [v1_exEmpty_windows]; rfl⟩

/-- C5: window non-degeneracy, amended to the guarded strategies.  For
every input and every converter pair, the MS2 window sets returned by v2,
v4, v5 and v6 — the strategies with the `!td.mz_values.is_empty()` guard
— never contain a key mapped to an empty table. -/
theorem c5_window_nondegeneracy (mzCv imCv : ℚ → ℚ)
    (frames : List Frame) (numaNodes : ℕ) :
    ((read_timstof_data_v2 mzCv imCv frames).ms2_windows.all
      (fun w => !w.2.mz_values.isEmpty)) = true ∧
    ((read_timstof_data_v4 mzCv imCv frames).ms2_windows.all
      (fun w => !w.2.mz_values.isEmpty)) = true ∧
    ((read_timstof_data_v5 mzCv imCv frames).ms2_windows.all
      (fun w => !w.2.mz_values.isEmpty)) = true ∧
    ((read_timstof_data_v6_hpc mzCv imCv numaNodes frames).ms2_windows.all
      (fun w => !w.2.mz_values.isEmpty)) = true := by
  have key : ∀ m : MS2Map, (∀ p ∈ m, p.2.mz_values ≠ []) →
      ((dequantizeWindows m).all
        (fun w => !w.2.mz_values.isEmpty)) = true := by
    intro m hm
    rw [List.all_eq_true]
    intro w hw
    obtain ⟨p, hp, hwp⟩ := mem_dequantizeWindows m w hw
    have hne := hm p hp
    show (!w.2.mz_values.isEmpty) = true
    rw [hwp]
    cases hmz : p.2.mz_values with
    | nil => exact absurd hmz hne
    | cons a t => rfl
  exact ⟨key _ (v2MS2Map_entries_ne mzCv imCv frames),
    key _ (v4MS2Map_entries_ne mzCv imCv frames),
    key _ (v5MS2Map_entries_ne mzCv imCv frames),
    key _ (v6MS2Map_entries_ne mzCv imCv numaNodes frames)⟩

/-- C6: single-frame read failure, refuted by the code.  v1 `expect`s
every read, so one failed slot yields no dataset at all; and v5_fixed's
ordered aggregator waits forever for the slot of a failed read (which
sends no message), so every frame after the first failed slot is silently
dropped: with slot 0 failed, the following MS1 frame's 3 peaks vanish
(total 0), and with slot 1 failed only the frame before it survives
(total 3, although the same frames read by the original total 5).  A
failed read is fatal to the batch in v1 and destroys other frames'
outputs in v5_fixed, contradicting the claimed empty-contribution
recovery. -/
theorem c6_read_failure_divergence :
    (read_timstof_data_v1_opt id id [some exFrameMS1, none]).isSome =
      false ∧
    totalPeakCount (read_timstof_data_v5_fixed id id
      [none, some exFrameMS1]) = 0 ∧
    totalPeakCount (read_timstof_data_v5_fixed id id
      [some exFrameMS1, none, some exFrameMS2]) = 3 ∧
    totalPeakCount (read_timstof_data id id [exFrameMS1]) = 3 ∧
    totalPeakCount (read_timstof_data id id [exFrameMS1, exFrameMS2]) =
      5 := by
  refine ⟨by decide, by decide, by decide, by decide, ?_⟩
  rw [orig_total_eq_reference]
  decide

/-- C7 counterexample: an MS2 frame whose scan-bound arrays are shorter
than its isolation center and width arrays makes the window loop index
out of bounds into `scan_starts`/`scan_ends` — a Rust panic — so
malformed frame metadata is not always recovered locally; only the
width-shorter-than-center mismatch is handled by the break. -/
theorem c7_truncation_policy_cex : ms2IndexOOB exFrameOOB = true := by
  decide

/-- C7: defensive truncation, amended.  The missing-width break itself is
correct for every frame, converter pair and locator: the emitted windows
are exactly the first `min(centers, widths)` ones, already-processed
windows kept and the rest dropped; and when the scan-bound arrays cover
that many windows — the extra validity the claim needs — no out-of-bounds
indexing (panic) can occur. -/
theorem c7_truncation_policy (mzCv imCv : ℚ → ℚ)
    (locate : ℕ → List ℕ → ℕ) (f : Frame)
    (hcover : min f.quadrupole_settings.isolation_mz.length
        f.quadrupole_settings.isolation_width.length ≤
      min f.quadrupole_settings.scan_starts.length
        f.quadrupole_settings.scan_ends.length) :
    ms2PairsFrom mzCv imCv locate f 0 =
      (List.range (min f.quadrupole_settings.isolation_mz.length
          f.quadrupole_settings.isolation_width.length)).map
        (fun w => (windowKey f w, windowTable mzCv imCv locate f w)) ∧
    ms2IndexOOB f = false := by
  constructor
  · rw [ms2PairsFrom_eq_map, List.range_eq_range', Nat.sub_zero]
  · unfold ms2IndexOOB
    have h : ¬ (min f.quadrupole_settings.scan_starts.length
        f.quadrupole_settings.scan_ends.length <
      min f.quadrupole_settings.isolation_mz.length
        f.quadrupole_settings.isolation_width.length) := by omega
    simp [h]

/-- C7 witness: the truncation theorem applied to the concrete MS2 frame,
whose single window is covered by its scan-bound arrays. -/
theorem c7_truncation_policy_witness :
    (min exFrameMS2.quadrupole_settings.isolation_mz.length
        exFrameMS2.quadrupole_settings.isolation_width.length ≤
      min exFrameMS2.quadrupole_settings.scan_starts.length
        exFrameMS2.quadrupole_settings.scan_ends.length) ∧
    (ms2PairsFrom id id find_scan_for_index exFrameMS2 0 =
      (List.range (min exFrameMS2.quadrupole_settings.isolation_mz.length
          exFrameMS2.quadrupole_settings.isolation_width.length)).map
        (fun w => (windowKey exFrameMS2 w,
          windowTable id id find_scan_for_index exFrameMS2 w)) ∧
      ms2IndexOOB exFrameMS2 = false) :=
  ⟨by decide,
    c7_truncation_policy id id find_scan_for_index exFrameMS2 (by decide)⟩

/-- C8 counterexample: `quantize` is not round-half-away-from-zero on all
inputs — the `as u32` conversion clamps negative values to 0, so at
`x = -1` rounding gives `-10000` while `quantize` gives `0`.  (The f32
bit-level determinism clause is outside this rational-arithmetic model;
see the result record.) -/
theorem c8_quantize_rounding_cex :
    roundAwayFromZero ((-1 : ℚ) * 10000) = -10000 ∧
    ((quantize (-1) : ℕ) : ℤ) = 0 ∧
    ((quantize (-1) : ℕ) : ℤ) ≠ roundAwayFromZero ((-1 : ℚ) * 10000) := by
  refine ⟨roundAway_neg1, quantize_neg1, ?_⟩
  rw [quantize_neg1, roundAway_neg1]
  decide

/-- C8: quantization semantics, amended to the representable range.  When
the rounded value of `x * 10000` lies in `[0, u32::MAX]`, `quantize x` is
exactly that rounded value, and the rounding is round-half-to-nearest
with ties away from zero: it is within 1/2 of `x * 10000`, and at an
exact half it moves away from zero (never toward it). -/
theorem c8_quantize_rounding (x : ℚ)
    (h0 : 0 ≤ roundAwayFromZero (x * 10000))
    (h1 : roundAwayFromZero (x * 10000) ≤ (u32Max : ℤ)) :
    ((quantize x : ℕ) : ℤ) = roundAwayFromZero (x * 10000) ∧
    |((roundAwayFromZero (x * 10000) : ℤ) : ℚ) - x * 10000| ≤ 1 / 2 ∧
    (|((roundAwayFromZero (x * 10000) : ℤ) : ℚ) - x * 10000| = 1 / 2 →
      |x * 10000| ≤ |((roundAwayFromZero (x * 10000) : ℤ) : ℚ)|) := by
  refine ⟨?_, roundAway_close (x * 10000),
    fun h => roundAway_tie (x * 10000) h⟩
  unfold quantize
  exact castU32_of_range _ h0 h1

/-- C8 witness: the amended quantization theorem applied to the exact
tie `x = 1/20000`, where `x * 10000 = 1/2` rounds away from zero to 1. -/
theorem c8_quantize_rounding_witness :
    (0 ≤ roundAwayFromZero ((1 / 20000 : ℚ) * 10000) ∧
      roundAwayFromZero ((1 / 20000 : ℚ) * 10000) ≤ (u32Max : ℤ)) ∧
    (((quantize (1 / 20000 : ℚ) : ℕ) : ℤ) =
        roundAwayFromZero ((1 / 20000 : ℚ) * 10000) ∧
      |((roundAwayFromZero ((1 / 20000 : ℚ) * 10000) : ℤ) : ℚ) -
          (1 / 20000 : ℚ) * 10000| ≤ 1 / 2 ∧
      (|((roundAwayFromZero ((1 / 20000 : ℚ) * 10000) : ℤ) : ℚ) -
          (1 / 20000 : ℚ) * 10000| = 1 / 2 →
        |(1 / 20000 : ℚ) * 10000| ≤
          |((roundAwayFromZero ((1 / 20000 : ℚ) * 10000) : ℤ) : ℚ)|)) :=
  ⟨⟨roundAway_half_nonneg, roundAway_half_le⟩,
    c8_quantize_rounding (1 / 20000) roundAway_half_nonneg
      roundAway_half_le⟩

/-- C9: the six parallel vectors stay aligned.  On frames whose intensity
and TOF arrays are parallel, v1's final MS1 table is balanced and every
returned MS2 window table is balanced; each per-frame v1 MS1 table and
each per-window table is balanced; and `merge_from` keeps balance and
moves the six fields of each row together: the merged rows are exactly
the rows of the first table followed by the rows of the second. -/
theorem c9_parallel_vectors (mzCv imCv : ℚ → ℚ) (frames : List Frame)
    (f : Frame) (win : ℕ) (a b : TimsTOFData)
    (hpar : ∀ f2 ∈ frames, f2.intensities.length = f2.tof_indices.length)
    (hf : f ∈ frames) (ha : a.balanced) (hb : b.balanced) :
    (read_timstof_data_v1 mzCv imCv frames).ms1_data.balanced ∧
    ((read_timstof_data_v1 mzCv imCv frames).ms2_windows.all
      (fun w => decide w.2.balanced)) = true ∧
    (ms1TableV1 mzCv imCv f).balanced ∧
    (windowTable mzCv imCv find_scan_for_index_binary f win).balanced ∧
    (a.merge_from b).balanced ∧
    (a.merge_from b).rows = a.rows ++ b.rows := by
  refine ⟨?_, ?_, ?_,
    windowTable_balanced mzCv imCv find_scan_for_index_binary f win,
    TimsTOFData.extend_from_balanced a b ha hb,
    TimsTOFData.rows_extend_from a b ha hb⟩
  · show ((v1Splits mzCv imCv frames).foldl
      (fun acc s => acc.merge_from s.ms1) TimsTOFData.new).balanced
    refine foldl_merge_balanced FrameSplit.ms1 (v1Splits mzCv imCv frames)
      TimsTOFData.new TimsTOFData.new_balanced ?_
    intro s hs
    unfold v1Splits at hs
    obtain ⟨f2, hf2, hsf⟩ := List.mem_map.mp hs
    rw [← hsf, processFrameV1_ms1 mzCv imCv f2 (hpar f2 hf2)]
    exact ms1Contribution_balanced mzCv imCv f2
  · rw [List.all_eq_true]
    intro w hw
    obtain ⟨p, hp, hwp⟩ := mem_dequantizeWindows
      (v1MS2Map mzCv imCv frames) w hw
    show decide w.2.balanced = true
    rw [decide_eq_true_eq, hwp]
    exact v1MS2Map_entries_balanced mzCv imCv frames p hp
  · rw [ms1TableV1_eq_ms1Table mzCv imCv f (hpar f hf)]
    exact ms1Table_balanced mzCv imCv find_scan_for_index_binary f

/-- C9 witness: the alignment theorem applied to a concrete two-frame
dataset, its first frame, window 0 and two empty tables. -/
theorem c9_parallel_vectors_witness :
    ((∀ f2 ∈ [exFrameMS1, exFrameMS2],
        f2.intensities.length = f2.tof_indices.length) ∧
      exFrameMS1 ∈ [exFrameMS1, exFrameMS2] ∧
      TimsTOFData.new.balanced) ∧
    ((read_timstof_data_v1 id id [exFrameMS1, exFrameMS2]).ms1_data.balanced ∧
      ((read_timstof_data_v1 id id [exFrameMS1, exFrameMS2]).ms2_windows.all
        (fun w => decide w.2.balanced)) = true ∧
      (ms1TableV1 id id exFrameMS1).balanced ∧
      (windowTable id id find_scan_for_index_binary exFrameMS1 0).balanced ∧
      (TimsTOFData.new.merge_from TimsTOFData.new).balanced ∧
      (TimsTOFData.new.merge_from TimsTOFData.new).rows =
        TimsTOFData.new.rows ++ TimsTOFData.new.rows) :=
  ⟨⟨by decide, List.mem_cons_self _ _, TimsTOFData.new_balanced⟩,
    c9_parallel_vectors id id [exFrameMS1, exFrameMS2] exFrameMS1 0
      TimsTOFData.new TimsTOFData.new (by decide)
      (List.mem_cons_self _ _) TimsTOFData.new_balanced
      TimsTOFData.new_balanced⟩

end AccelRaw
